import Mathlib

/-!
Verification of the papy font-conversion scripts.

Shallow embedding of the core algorithms of
`src/scripts/fontconvert.py`, `src/scripts/convert_theme_fonts.py` and
`src/lib/EpdFont/scripts/fontconvert.py`: unicode interval merging,
bit-depth encoding of glyph bitmaps, and the `.epdfont` binary
serialization.  Machine integers are modelled as `Nat`/`Int`; Python
byte values are `Nat` with explicit masking where the source masks.
-/

set_option maxHeartbeats 1000000
set_option maxRecDepth 100000

namespace Papy

/-! ### Interval merging

`merge_intervals` (src/scripts/fontconvert.py, lines 81-92) sorts the
input with Python's `sorted` (lexicographic on pairs) and then folds,
combining the running interval `merged[-1]` with the next `(s, e)` when
`s <= merged[-1][1] + 1`.  The module-level loop of
src/lib/EpdFont/scripts/fontconvert.py (lines 128-135) has the same
shape but combines when `i_start + 1 <= unvalidated_intervals[-1][1]`.
Both are instances of `mergeAuxC` with different combine conditions
(the condition only reads the running end and the next start). -/

/-- Lexicographic order on pairs of naturals: Python tuple comparison,
the order used by `sorted(intervals)`. -/
def lexLe (a b : Nat × Nat) : Prop :=
  a.1 < b.1 ∨ (a.1 = b.1 ∧ a.2 ≤ b.2)

instance : DecidableRel lexLe := fun a b =>
  inferInstanceAs (Decidable (a.1 < b.1 ∨ (a.1 = b.1 ∧ a.2 ≤ b.2)))

instance : IsTotal (Nat × Nat) lexLe :=
  ⟨by intro a b; unfold lexLe; omega⟩

instance : IsTrans (Nat × Nat) lexLe :=
  ⟨by intro a b c; unfold lexLe; omega⟩

instance : IsAntisymm (Nat × Nat) lexLe := by
  constructor
  intro a b h1 h2
  obtain ⟨x, y⟩ := a
  obtain ⟨u, v⟩ := b
  unfold lexLe at h1 h2
  simp only [Prod.mk.injEq]
  omega

/-- Python's `sorted` on a list of pairs: the unique `lexLe`-sorted
permutation, realised by insertion sort. -/
def sortPairs (l : List (Nat × Nat)) : List (Nat × Nat) :=
  List.insertionSort lexLe l

/-- The merge fold shared by both scripts.  `cur` is the running last
interval (`merged[-1]`); `cond curEnd nextStart` decides whether the
next interval is combined into it (its end then becomes the max of the
two ends) or appended. -/
def mergeAuxC (cond : Nat → Nat → Prop) [DecidableRel cond] :
    Nat × Nat → List (Nat × Nat) → List (Nat × Nat)
  | cur, [] => [cur]
  | cur, (s, e) :: rest =>
    if cond cur.2 s then mergeAuxC cond (cur.1, max cur.2 e) rest
    else cur :: mergeAuxC cond (s, e) rest

/-- Sort then merge with condition `cond`. -/
def mergeWithC (cond : Nat → Nat → Prop) [DecidableRel cond]
    (l : List (Nat × Nat)) : List (Nat × Nat) :=
  match sortPairs l with
  | [] => []
  | x :: rest => mergeAuxC cond x rest

/-- `merge_intervals` of src/scripts/fontconvert.py: combine when
`i_start <= merged[-1][1] + 1`. -/
def merge_intervals : List (Nat × Nat) → List (Nat × Nat) :=
  mergeWithC (fun curEnd s => s ≤ curEnd + 1)

/-- The module-level merge loop of src/lib/EpdFont/scripts/fontconvert.py:
combine when `i_start + 1 <= unvalidated_intervals[-1][1]`. -/
def lib_merge : List (Nat × Nat) → List (Nat × Nat) :=
  mergeWithC (fun curEnd s => s + 1 ≤ curEnd)

/-- Code point `c` lies in the inclusive interval `p`. -/
def inIv (p : Nat × Nat) (c : Nat) : Prop :=
  p.1 ≤ c ∧ c ≤ p.2

instance : ∀ p c, Decidable (inIv p c) := fun p c =>
  inferInstanceAs (Decidable (p.1 ≤ c ∧ c ≤ p.2))

/-- Code point `c` is covered by some interval of the list. -/
def covers (l : List (Nat × Nat)) (c : Nat) : Prop :=
  ∃ p ∈ l, inIv p c

instance : ∀ l c, Decidable (covers l c) := fun l c =>
  inferInstanceAs (Decidable (∃ p ∈ l, inIv p c))

/-! ### Bit-depth encoders

`render_glyph_1bit` / `render_glyph_2bit` (src/scripts/fontconvert.py)
and `_build_4bit_grayscale` / `_get_pixel_4bit` / `_quantize_pixel` /
`_render_downsampled` (src/scripts/convert_theme_fonts.py).  A bitmap
buffer is a row-major list of byte values, pitch = width. -/

/-- A rendered FreeType bitmap: 8-bit greyscale, row-major, one byte
per pixel, pitch = width. -/
structure FTBitmap where
  width : Nat
  rows : Nat
  buffer : List Nat

/-- The 4-bit-greyscale build loop shared by `render_glyph_1bit` and
`render_glyph_2bit` (fontconvert.py lines 124-137 / 166-178): `i` is
the running buffer index, `px` the nibble accumulator; even columns
load the high nibble, odd columns pack the pair, and an odd-width row
flushes its trailing low nibble at end of line. -/
def build4bitGo (w : Nat) : Nat → Nat → List Nat → List Nat
  | _, _, [] => []
  | i, px, v :: rest =>
    if (i % w) % 2 = 0 then
      if i % w = w - 1 ∧ 0 < w % 2 then
        (v >>> 4) :: build4bitGo w (i + 1) 0 rest
      else
        build4bitGo w (i + 1) (v >>> 4) rest
    else
      if i % w = w - 1 ∧ 0 < w % 2 then
        (px ||| (v &&& 0xF0)) :: 0 :: build4bitGo w (i + 1) 0 rest
      else
        (px ||| (v &&& 0xF0)) :: build4bitGo w (i + 1) 0 rest

def build4bit (w : Nat) (buf : List Nat) : List Nat :=
  build4bitGo w 0 0 buf

/-- One packed 4-bit row: consecutive byte pairs combine into one byte
(low pixel in the low nibble); an odd trailing byte keeps only its
high nibble, stored low. -/
def rowPack : List Nat → List Nat
  | [] => []
  | [a] => [a >>> 4]
  | a :: b :: t => ((a >>> 4) ||| (b &&& 0xF0)) :: rowPack t

/-- `h` rows of `rowPack`, peeling `w` source bytes per row. -/
def rowsPack (w : Nat) : Nat → List Nat → List Nat
  | 0, _ => []
  | h + 1, buf => rowPack (buf.take w) ++ rowsPack w h (buf.drop w)

/-- The indexed nibble read of the fontconvert downsample loops:
`pixels4g[y * pitch + x // 2] >> ((x % 2) * 4) & 0xF`. -/
def pix4get (g4 : List Nat) (pitch x y : Nat) : Nat :=
  ((g4.getD (y * pitch + x / 2) 0) >>> ((x % 2) * 4)) &&& 0xF

/-- Row-major pixel coordinates `(y, x)` visited by the nested
downsample loops. -/
def pixList (w h : Nat) : List (Nat × Nat) :=
  ((List.range h).map (fun y => (List.range w).map (fun x => (y, x)))).flatten

/-- The emit cadence shared by all downsample loops: per pixel `(y, x)`
update the accumulator with `f`, and append it (resetting to 0) when
`(y * w + x) % k = k - 1`.  Returns the emitted bytes and the final
accumulator. -/
def scanEmit (k w : Nat) (f : Nat → Nat → Nat → Nat) :
    List (Nat × Nat) → Nat → List Nat × Nat
  | [], px => ([], px)
  | (y, x) :: rest, px =>
    let px2 := f y x px
    if (y * w + x) % k = k - 1 then
      let r := scanEmit k w f rest 0
      (px2 :: r.1, r.2)
    else scanEmit k w f rest px2

/-- `render_glyph_2bit` (src/scripts/fontconvert.py lines 121-160). -/
def render_glyph_2bit (bm : FTBitmap) : List Nat :=
  let pixels4g := build4bit bm.width bm.buffer
  let pitch := bm.width / 2 + bm.width % 2
  let r := scanEmit 4 bm.width
    (fun y x px =>
      (px <<< 2) +
        (let v := pix4get pixels4g pitch x y
         if 12 ≤ v then 3 else if 8 ≤ v then 2 else if 4 ≤ v then 1 else 0))
    (pixList bm.width bm.rows) 0
  if (bm.width * bm.rows) % 4 ≠ 0 then
    r.1 ++ [r.2 <<< ((4 - (bm.width * bm.rows) % 4) * 2)]
  else r.1

/-- `render_glyph_1bit` (src/scripts/fontconvert.py lines 163-196): a
pixel is ink when its nibble masked with 0xE (even column) or 0xE0
(odd column) is nonzero. -/
def render_glyph_1bit (bm : FTBitmap) : List Nat :=
  let pixels4g := build4bit bm.width bm.buffer
  let pitch := bm.width / 2 + bm.width % 2
  let r := scanEmit 8 bm.width
    (fun y x px =>
      (px <<< 1) +
        (let b := pixels4g.getD (y * pitch + x / 2) 0
         if (x % 2 = 0 ∧ 0 < b &&& 0xE) ∨ (x % 2 = 1 ∧ 0 < b &&& 0xE0)
         then 1 else 0))
    (pixList bm.width bm.rows) 0
  if (bm.width * bm.rows) % 8 ≠ 0 then
    r.1 ++ [r.2 <<< (8 - (bm.width * bm.rows) % 8)]
  else r.1

/-- `_build_4bit_grayscale` (src/scripts/convert_theme_fonts.py lines
72-81): per row, step columns by two, packing `buffer[i] >> 4` as the
low nibble and, when present, `buffer[i+1] >> 4` as the high nibble. -/
def _build_4bit_grayscale (w h : Nat) (buf : List Nat) : List Nat :=
  ((List.range h).map fun y =>
    (List.range ((w + 1) / 2)).map fun j =>
      let x := 2 * j
      let i := y * w + x
      ((buf.getD i 0) >>> 4) |||
        (if x + 1 < w then ((buf.getD (i + 1) 0) >>> 4) <<< 4 else 0)).flatten

/-- `_get_pixel_4bit` (src/scripts/convert_theme_fonts.py lines 84-92),
with both out-of-bounds guard branches. -/
def _get_pixel_4bit (pixels4g : List Nat) (pitch x y : Nat) : Nat :=
  if pitch = 0 ∨ pixels4g = [] then 0
  else
    let idx := y * pitch + x / 2
    if pixels4g.length ≤ idx then 0
    else ((pixels4g.getD idx 0) >>> ((x % 2) * 4)) &&& 0xF

/-- `_quantize_pixel` (src/scripts/convert_theme_fonts.py lines 95-105). -/
def _quantize_pixel (value : Nat) (is2bit : Bool) : Nat :=
  if is2bit then
    if 12 ≤ value then 3
    else if 8 ≤ value then 2
    else if 4 ≤ value then 1
    else 0
  else if 2 ≤ value then 1 else 0

/-- `_render_downsampled` (src/scripts/convert_theme_fonts.py lines
108-132). -/
def _render_downsampled (bm : FTBitmap) (pixels4g : List Nat)
    (is2bit : Bool) : List Nat :=
  let bitsPerPixel := if is2bit then 2 else 1
  let pixelsPerByte := 8 / bitsPerPixel
  let pitch := (bm.width + 1) / 2
  let totalPixels := bm.width * bm.rows
  let r := scanEmit pixelsPerByte bm.width
    (fun y x px =>
      (px <<< bitsPerPixel) |||
        _quantize_pixel (_get_pixel_4bit pixels4g pitch x y) is2bit)
    (pixList bm.width bm.rows) 0
  if totalPixels % pixelsPerByte ≠ 0 then
    r.1 ++ [r.2 <<< ((pixelsPerByte - totalPixels % pixelsPerByte) * bitsPerPixel)]
  else r.1

/-- Spec-side 2-bit quantizer, from the spec's words: thresholds
`≥12→3, ≥8→2, ≥4→1, else 0` on the reduced 4-bit value. -/
def quantize2_spec (v : Nat) : Nat :=
  if 12 ≤ v then 3 else if 8 ≤ v then 2 else if 4 ≤ v then 1 else 0

/-- Spec-side packer, from the spec's words: four values per byte, two
bits each, most-significant pair first, row-major continuous stream;
a final partial group is left-shifted so its pairs occupy the
most-significant positions. -/
def pack2_spec : List Nat → List Nat
  | a :: b :: c :: d :: rest => (a * 64 + b * 16 + c * 4 + d) :: pack2_spec rest
  | [] => []
  | l => [(l.foldl (fun acc v => acc * 4 + v) 0) * 4 ^ (4 - l.length)]

/-- The spec's 2-bit encoder end to end: quantize each sample's high
nibble, then pack. -/
def encode2_spec (bm : FTBitmap) : List Nat :=
  pack2_spec (bm.buffer.map (fun v => quantize2_spec (v >>> 4)))

/-- Position-indexed packing fold: the downsample loops specialised to
an explicit value list with a running pixel index. -/
def packVals (k bpp : Nat) : List Nat → Nat → Nat → List Nat × Nat
  | [], _, px => ([], px)
  | v :: rest, p, px =>
    let px2 := (px <<< bpp) + v
    if p % k = k - 1 then
      let r := packVals k bpp rest (p + 1) 0
      (px2 :: r.1, r.2)
    else packVals k bpp rest (p + 1) px2

/-! ### Serialization, glyph records, exit codes, variable-font weight

`write_epdfont` (src/scripts/fontconvert.py lines 348-467), the
binary-writing section of `convert_font`
(src/scripts/convert_theme_fonts.py lines 221-255), the glyph-record
constructions of both scripts, the batch exit codes, and
`set_variable_font_weight` (src/scripts/fontconvert.py lines 199-214). -/

/-- `int(math.floor(val / (1 << 6)))`: 26.6 fixed point to pixels,
rounding down. -/
def norm_floor (val : Int) : Int :=
  Int.fdiv val 64

/-- `int(math.ceil(val / (1 << 6)))`: 26.6 fixed point to pixels,
rounding up. -/
def norm_ceil (val : Int) : Int :=
  -(Int.fdiv (-val) 64)

/-- Byte layout of `struct.pack('<H', n)`. -/
def le16 (n : Nat) : List Nat :=
  [n % 256, n / 256 % 256]

/-- Byte layout of `struct.pack('<I', n)`. -/
def le32 (n : Nat) : List Nat :=
  [n % 256, n / 256 % 256, n / 65536 % 256, n / 16777216 % 256]

/-- Byte layout of `struct.pack('<h', i)`: little-endian two's
complement. -/
def le16i (i : Int) : List Nat :=
  le16 (i % 65536).toNat

/-- A glyph record (`GlyphProps` namedtuple of both scripts). -/
structure GlyphRec where
  width : Nat
  height : Nat
  advance_x : Int
  left : Int
  top : Int
  data_length : Nat
  data_offset : Nat
  code_point : Nat

/-- The in-memory font data handed to a serializer: glyph records with
their packed bytes, validated intervals, metrics, bit-depth flag. -/
structure FontData where
  glyphs : List (GlyphRec × List Nat)
  intervals : List (Nat × Nat)
  advance_y : Int
  ascender : Int
  descender : Int
  is2bit : Bool

/-- The interval table: 12 bytes per interval, the third field the
running glyph offset, advanced by `i_end - i_start + 1`
(write_epdfont lines 432-441 / convert_font lines 233-237). -/
def intervalBytes : List (Nat × Nat) → Nat → List Nat
  | [], _ => []
  | (s, e) :: rest, off =>
    (le32 s ++ le32 e ++ le32 off) ++ intervalBytes rest (off + (e - s + 1))

/-- One 14-byte glyph record as serialized by write_epdfont lines
443-460: width/height/advance masked to a byte, left/top as int16,
dataLength uint16, dataOffset uint32. -/
def glyphBytes (g : GlyphRec) : List Nat :=
  [g.width % 256, g.height % 256, (g.advance_x % 256).toNat, 0] ++
    le16i g.left ++ le16i g.top ++ le16 g.data_length ++ le32 g.data_offset

/-- The 16-byte header of write_epdfont lines 407-414. -/
def headerBytes (is2bit : Bool) : List Nat :=
  le32 0x46445045 ++ le16 1 ++ le16 (if is2bit then 1 else 0) ++
    List.replicate 8 0

/-- The 18-byte metrics block of write_epdfont lines 416-430. -/
def metricsBytes (d : FontData) : List Nat :=
  [(d.advance_y % 256).toNat, 0] ++ le16i d.ascender ++ le16i d.descender ++
    le32 d.intervals.length ++ le32 d.glyphs.length ++
    le32 ((d.glyphs.map (fun g => g.2.length)).sum)

/-- `write_epdfont` (src/scripts/fontconvert.py lines 348-467): the
complete buffer assembled in memory before the single file write.
Out-of-range fields are masked here; the ranged theorems add the
hypotheses under which `struct.pack_into` would not have raised. -/
def write_epdfont (d : FontData) : List Nat :=
  headerBytes d.is2bit ++ metricsBytes d ++ intervalBytes d.intervals 0 ++
    ((d.glyphs.map (fun g => glyphBytes g.1)).flatten) ++
    ((d.glyphs.map (fun g => g.2)).flatten)

/-- Binary mode of fontconvert.py `main`: `write_epdfont` runs only when
`convert_font` returned data, so a file appears only for a fully
constructed asset and holds the complete buffer. -/
def fc_output (conv : Option FontData) : Option (List Nat) :=
  conv.map write_epdfont

/-- `struct.pack('<B', n)`: fails (raises) outside 0..255. -/
def packB (n : Nat) : Option (List Nat) :=
  if n < 256 then some [n] else none

/-- `struct.pack('<B', i)` for a Python int expression:: fails outside
0..255. -/
def packBi (i : Int) : Option (List Nat) :=
  if 0 ≤ i ∧ i < 256 then some [i.toNat] else none

/-- `struct.pack('<H', n)`: fails outside 0..65535. -/
def packH (n : Nat) : Option (List Nat) :=
  if n < 65536 then some (le16 n) else none

/-- `struct.pack('<I', n)`: fails outside the uint32 range. -/
def packI (n : Nat) : Option (List Nat) :=
  if n < 4294967296 then some (le32 n) else none

/-- `struct.pack('<h', i)`: fails outside the int16 range. -/
def packh (i : Int) : Option (List Nat) :=
  if -32768 ≤ i ∧ i < 32768 then some (le16i i) else none

/-- Concatenation of packed pieces within one `struct.pack` call: any
failing piece fails the call. -/
def catOpt : List (Option (List Nat)) → Option (List Nat)
  | [] => some []
  | o :: rest =>
    Option.bind o (fun b => Option.bind (catOpt rest) (fun r => some (b ++ r)))

/-- `f.write(struct.pack('<IHH8x', MAGIC, VERSION, flags))`
(convert_font line 227). -/
def ctf_header (is2bit : Bool) : Option (List Nat) :=
  catOpt [packI 0x46445045, packH 1, packH (if is2bit then 1 else 0),
    some (List.replicate 8 0)]

/-- `f.write(struct.pack('<BBhhIII', advance_y & 0xFF, 0, ascender,
descender, len(intervals), len(all_glyphs), total_bitmap_size))`
(convert_font lines 230-231). -/
def ctf_metrics (d : FontData) : Option (List Nat) :=
  catOpt [packBi (d.advance_y % 256), packBi 0, packh d.ascender,
    packh d.descender, packI d.intervals.length, packI d.glyphs.length,
    packI ((d.glyphs.map (fun g => g.2.length)).sum)]

/-- The per-interval `f.write(struct.pack('<III', ...))` calls with the
running glyph offset (convert_font lines 234-237). -/
def ctf_interval_chunks : List (Nat × Nat) → Nat → List (Option (List Nat))
  | [], _ => []
  | (s, e) :: rest, off =>
    catOpt [packI s, packI e, packI off] ::
      ctf_interval_chunks rest (off + (e - s + 1))

/-- One `f.write(struct.pack('<4BhhHI', glyph.width, glyph.height,
glyph.advance_x & 0xFF, 0, glyph.left, glyph.top, glyph.data_length,
glyph.data_offset))` call (convert_font lines 240-244): width and
height are passed unmasked, so values over 255 raise. -/
def ctf_glyph_chunk (g : GlyphRec) : Option (List Nat) :=
  catOpt [packB g.width, packB g.height, packBi (g.advance_x % 256), packB 0,
    packh g.left, packh g.top, packH g.data_length, packI g.data_offset]

/-- The full ordered `f.write` sequence of convert_font lines 224-248:
header, metrics, interval records, glyph records, bitmap blobs. -/
def ctf_chunks (d : FontData) : List (Option (List Nat)) :=
  [ctf_header d.is2bit, ctf_metrics d] ++ ctf_interval_chunks d.intervals 0 ++
    d.glyphs.map (fun g => ctf_glyph_chunk g.1) ++
    d.glyphs.map (fun g => some g.2)

/-- Disk state after running a write sequence inside the script's
`try`: bytes of successful writes before the first failure stay in the
file (the except handler does not remove it); the flag is the reported
success. -/
def writesToDisk : List (Option (List Nat)) → List Nat × Bool
  | [] => ([], true)
  | some c :: rest => ((c ++ (writesToDisk rest).1, (writesToDisk rest).2))
  | none :: _ => ([], false)

/-- Field ranges under which every `struct.pack` of the binary writers
succeeds. -/
def i16ok (i : Int) : Prop := -32768 ≤ i ∧ i < 32768

instance : ∀ i, Decidable (i16ok i) := fun i =>
  inferInstanceAs (Decidable (-32768 ≤ i ∧ i < 32768))

def rangesOk (d : FontData) : Prop :=
  (∀ p ∈ d.intervals, p.1 < 4294967296 ∧ p.2 < 4294967296) ∧
  ((d.intervals.map (fun p => p.2 - p.1 + 1)).sum < 4294967296) ∧
  (∀ g ∈ d.glyphs, g.1.width < 256 ∧ g.1.height < 256 ∧ i16ok g.1.left ∧
    i16ok g.1.top ∧ g.1.data_length < 65536 ∧ g.1.data_offset < 4294967296) ∧
  i16ok d.ascender ∧ i16ok d.descender ∧
  d.intervals.length < 4294967296 ∧ d.glyphs.length < 4294967296 ∧
  ((d.glyphs.map (fun g => g.2.length)).sum < 4294967296)

instance : ∀ d, Decidable (rangesOk d) := fun d =>
  inferInstanceAs (Decidable (_ ∧ _ ∧ _ ∧ _ ∧ _ ∧ _ ∧ _ ∧ _))

/-- Glyph record construction of fontconvert.py `convert_font` lines
247-256: width, height and advance are clamped with `min(.., 255)`. -/
def fc_make_glyph (bmWidth bmRows : Nat) (advX26 : Int) (left top : Int)
    (dataLen dataOff cp : Nat) : GlyphRec :=
  { width := min bmWidth 255, height := min bmRows 255,
    advance_x := min (norm_floor advX26) 255,
    left := left, top := top, data_length := dataLen,
    data_offset := dataOff, code_point := cp }

/-- Glyph record construction of convert_theme_fonts.py `convert_font`
lines 202-211: fields stored unclamped. -/
def ctf_make_glyph (bmWidth bmRows : Nat) (advX26 : Int) (left top : Int)
    (dataLen dataOff cp : Nat) : GlyphRec :=
  { width := bmWidth, height := bmRows, advance_x := norm_floor advX26,
    left := left, top := top, data_length := dataLen,
    data_offset := dataOff, code_point := cp }

/-- Exit logic of convert_theme_fonts.py `main` (lines 317-350): count
successes over all requested (size, style) items, return 0 iff all
succeeded. -/
def ctf_main_exit (outcomes : List Bool) : Nat :=
  if outcomes.count true = outcomes.length then 0 else 1

/-- Exit status of fontconvert.py `main` in binary `-r` mode (lines
553-619): conversion failures print a message and `continue`; the
branch ends without `sys.exit`, so the process exit status is 0
regardless of the outcomes. -/
def fontconvert_binary_exit (outcomes : List Bool) : Nat :=
  0

/-- Exit status of fontconvert.py `main` in header mode (lines
621-713): `sys.exit(1)` when a font file is missing or `convert_font`
returned None. -/
def fontconvert_header_exit (fontsFound : Bool) (dataOk : Bool) : Nat :=
  if fontsFound = false then 1 else if dataOk = false then 1 else 0

/-- A variation axis as exposed by `FT_Get_MM_Var`. -/
structure FTVarAxis where
  name : List Char
  default : Int

/-- The axis-name test of set_variable_font_weight line 210:
`"weight" in name or "wght" in name` after lower-casing. -/
def isWeightAxis (name : List Char) : Bool :=
  decide ("weight".toList <:+: name.map Char.toLower) ||
    decide ("wght".toList <:+: name.map Char.toLower)

/-- `set_variable_font_weight` (src/scripts/fontconvert.py lines
199-214): `none` models an `FT_Get_MM_Var` error (non-variable font,
early return); otherwise every weight axis gets `weight * 65536` and
every other axis its default coordinate. -/
def set_variable_font_weight (mmVar : Option (List FTVarAxis))
    (weight : Int) : Option (List Int) :=
  match mmVar with
  | none => none
  | some axes =>
    some (axes.map (fun a =>
      if isWeightAxis a.name then weight * 65536 else a.default))

section MergeLemmas

variable (cond : Nat → Nat → Prop) [DecidableRel cond]

theorem mergeAuxC_head :
    ∀ (rest : List (Nat × Nat)) (cur : Nat × Nat),
      ∃ e₀ t, mergeAuxC cond cur rest = (cur.1, e₀) :: t ∧ cur.2 ≤ e₀ := by
  intro rest
  induction rest with
  | nil => exact fun cur => ⟨cur.2, [], rfl, le_refl _⟩
  | cons p t ih =>
    intro cur
    obtain ⟨s, e⟩ := p
    by_cases h : cond cur.2 s
    · obtain ⟨e₀, t', ht, he⟩ := ih (cur.1, max cur.2 e)
      exact ⟨e₀, t', by simpa [mergeAuxC, h] using ht,
        le_trans (le_max_left _ _) he⟩
    · exact ⟨cur.2, mergeAuxC cond (s, e) t, by simp [mergeAuxC, h], le_refl _⟩

/-- Consecutive intervals of the merge output never satisfy the combine
condition. -/
theorem mergeAuxC_chain :
    ∀ (rest : List (Nat × Nat)) (cur : Nat × Nat),
      List.Chain' (fun a b : Nat × Nat => ¬ cond a.2 b.1)
        (mergeAuxC cond cur rest) := by
  intro rest
  induction rest with
  | nil => intro cur; simp [mergeAuxC]
  | cons p t ih =>
    intro cur
    obtain ⟨s, e⟩ := p
    by_cases h : cond cur.2 s
    · simpa [mergeAuxC, h] using ih (cur.1, max cur.2 e)
    · obtain ⟨e₀, t', ht, _⟩ := mergeAuxC_head cond t (s, e)
      have hchain := ih (s, e)
      rw [ht] at hchain
      simp only [mergeAuxC, h, if_false]
      rw [ht]
      exact List.Chain'.cons (by simpa using h) hchain

/-- Every element of the merge output starts where some input interval
starts, and its end dominates that input interval's end. -/
theorem mergeAuxC_mem :
    ∀ (rest : List (Nat × Nat)) (cur : Nat × Nat),
      ∀ b ∈ mergeAuxC cond cur rest,
        ∃ p ∈ cur :: rest, p.1 = b.1 ∧ p.2 ≤ b.2 := by
  intro rest
  induction rest with
  | nil =>
    intro cur b hb
    simp only [mergeAuxC, List.mem_singleton] at hb
    exact ⟨cur, by simp [hb]⟩
  | cons q t ih =>
    intro cur b hb
    obtain ⟨s, e⟩ := q
    by_cases h : cond cur.2 s
    · simp only [mergeAuxC, h, if_true] at hb
      obtain ⟨p, hp, h1, h2⟩ := ih (cur.1, max cur.2 e) b hb
      rcases List.mem_cons.1 hp with rfl | hp
      · exact ⟨cur, List.mem_cons_self _ _, h1, le_trans (le_max_left _ _) h2⟩
      · exact ⟨p, by simp [hp], h1, h2⟩
    · simp only [mergeAuxC, h, if_false, List.mem_cons] at hb
      rcases hb with rfl | hb
      · exact ⟨b, List.mem_cons_self _ _, rfl, le_refl _⟩
      · obtain ⟨p, hp, h1, h2⟩ := ih (s, e) b hb
        exact ⟨p, by simp [List.mem_cons.1 hp], h1, h2⟩

/-- Absorbing the next interval into the running one preserves
lexicographic sortedness. -/
theorem sorted_merge_step {cur : Nat × Nat} {s e : Nat} {t : List (Nat × Nat)}
    (h : List.Sorted lexLe (cur :: (s, e) :: t)) :
    List.Sorted lexLe ((cur.1, max cur.2 e) :: t) := by
  rw [List.sorted_cons] at h ⊢
  obtain ⟨h1, h2⟩ := h
  rw [List.sorted_cons] at h2
  obtain ⟨h2, h3⟩ := h2
  refine ⟨fun p hp => ?_, h3⟩
  have ha := h1 p (List.mem_cons_of_mem _ hp)
  have hb := h2 p hp
  have hc := h1 (s, e) (List.mem_cons_self _ _)
  unfold lexLe at ha hb hc ⊢
  simp only at ha hb hc ⊢
  omega

theorem mergeAuxC_sorted :
    ∀ (rest : List (Nat × Nat)) (cur : Nat × Nat),
      List.Sorted lexLe (cur :: rest) →
      List.Sorted lexLe (mergeAuxC cond cur rest) := by
  intro rest
  induction rest with
  | nil => intro cur _; simp [mergeAuxC]
  | cons q t ih =>
    intro cur hsort
    obtain ⟨s, e⟩ := q
    by_cases h : cond cur.2 s
    · simp only [mergeAuxC, h, if_true]
      exact ih _ (sorted_merge_step hsort)
    · simp only [mergeAuxC, h, if_false]
      rw [List.sorted_cons] at hsort ⊢
      obtain ⟨h1, h2⟩ := hsort
      refine ⟨fun b hb => ?_, ih _ h2⟩
      obtain ⟨p, hp, hps, hpe⟩ := mergeAuxC_mem cond t (s, e) b hb
      have := h1 p hp
      unfold lexLe at this ⊢
      omega

/-- If no consecutive pair satisfies the combine condition, the merge
pass is the identity. -/
theorem mergeAuxC_noop :
    ∀ (rest : List (Nat × Nat)) (cur : Nat × Nat),
      List.Chain' (fun a b : Nat × Nat => ¬ cond a.2 b.1) (cur :: rest) →
      mergeAuxC cond cur rest = cur :: rest := by
  intro rest
  induction rest with
  | nil => intro cur _; rfl
  | cons q t ih =>
    intro cur hchain
    obtain ⟨s, e⟩ := q
    rw [List.chain'_cons] at hchain
    simp only [mergeAuxC, hchain.1, if_false]
    rw [ih (s, e) hchain.2]

theorem mergeWithC_sorted (l : List (Nat × Nat)) :
    List.Sorted lexLe (mergeWithC cond l) := by
  unfold mergeWithC
  have hs : List.Sorted lexLe (sortPairs l) := List.sorted_insertionSort lexLe l
  cases h : sortPairs l with
  | nil => simp
  | cons x rest =>
    rw [h] at hs
    exact mergeAuxC_sorted cond rest x hs

theorem mergeWithC_chain (l : List (Nat × Nat)) :
    List.Chain' (fun a b : Nat × Nat => ¬ cond a.2 b.1) (mergeWithC cond l) := by
  unfold mergeWithC
  cases h : sortPairs l with
  | nil => simp
  | cons x rest => exact mergeAuxC_chain cond rest x

/-- Each merge is idempotent: the output is sorted and no consecutive
pair satisfies the combine condition, so a second pass changes
nothing. -/
theorem mergeWithC_idem (l : List (Nat × Nat)) :
    mergeWithC cond (mergeWithC cond l) = mergeWithC cond l := by
  have hsorted := mergeWithC_sorted cond l
  have hchain := mergeWithC_chain cond l
  generalize hout : mergeWithC cond l = out at hsorted hchain
  unfold mergeWithC
  rw [show sortPairs out = out from List.Sorted.insertionSort_eq hsorted]
  cases out with
  | nil => rfl
  | cons x rest => exact mergeAuxC_noop cond rest x hchain

end MergeLemmas

theorem covers_perm {l l' : List (Nat × Nat)} (h : l.Perm l') (c : Nat) :
    covers l c ↔ covers l' c := by
  unfold covers
  exact ⟨fun ⟨p, hp, hi⟩ => ⟨p, h.mem_iff.1 hp, hi⟩,
    fun ⟨p, hp, hi⟩ => ⟨p, h.mem_iff.2 hp, hi⟩⟩

theorem covers_cons {p : Nat × Nat} {l : List (Nat × Nat)} {c : Nat} :
    covers (p :: l) c ↔ inIv p c ∨ covers l c := by
  simp [covers]

/-- Coverage preservation of the `merge_intervals` fold: merging with the
condition `s ≤ cur.2 + 1` neither adds nor drops covered code points,
for well-formed sorted input. -/
theorem mergeAux₁_covers :
    ∀ (rest : List (Nat × Nat)) (cur : Nat × Nat),
      cur.1 ≤ cur.2 → (∀ p ∈ rest, p.1 ≤ p.2) →
      List.Sorted lexLe (cur :: rest) →
      ∀ c, covers (mergeAuxC (fun curEnd s => s ≤ curEnd + 1) cur rest) c ↔
        inIv cur c ∨ covers rest c := by
  intro rest
  induction rest with
  | nil =>
    intro cur _ _ _ c
    simp [mergeAuxC, covers]
  | cons q t ih =>
    intro cur hcur hwf hsort c
    obtain ⟨s, e⟩ := q
    have hse : s ≤ e := hwf (s, e) (List.mem_cons_self _ _)
    have hwt : ∀ p ∈ t, p.1 ≤ p.2 := fun p hp => hwf p (List.mem_cons_of_mem _ hp)
    have hcs : lexLe cur (s, e) :=
      (List.sorted_cons.1 hsort).1 (s, e) (List.mem_cons_self _ _)
    have hcurs : cur.1 ≤ s := by unfold lexLe at hcs; omega
    by_cases h : s ≤ cur.2 + 1
    · simp only [mergeAuxC, h, if_true]
      rw [ih (cur.1, max cur.2 e) (by simp; omega) hwt (sorted_merge_step hsort)]
      rw [covers_cons]
      have : inIv (cur.1, max cur.2 e) c ↔ inIv cur c ∨ inIv (s, e) c := by
        unfold inIv; simp only; omega
      rw [this]; tauto
    · simp only [mergeAuxC, h, if_false]
      rw [covers_cons, covers_cons,
        ih (s, e) hse hwt (List.sorted_cons.1 hsort).2]

theorem sortPairs_perm (l : List (Nat × Nat)) : (sortPairs l).Perm l :=
  List.perm_insertionSort lexLe l

/-- Coverage preservation for the full `merge_intervals`. -/
theorem merge_intervals_covers (l : List (Nat × Nat))
    (hwf : ∀ p ∈ l, p.1 ≤ p.2) (c : Nat) :
    covers (merge_intervals l) c ↔ covers l c := by
  have hperm := sortPairs_perm l
  have hwfs : ∀ p ∈ sortPairs l, p.1 ≤ p.2 := fun p hp => hwf p (hperm.mem_iff.1 hp)
  have hsort : List.Sorted lexLe (sortPairs l) := List.sorted_insertionSort lexLe l
  rw [← covers_perm hperm c]
  unfold merge_intervals mergeWithC
  cases h : sortPairs l with
  | nil => rfl
  | cons x rest =>
    rw [h] at hwfs hsort
    rw [mergeAux₁_covers rest x (hwfs x (List.mem_cons_self _ _))
      (fun p hp => hwfs p (List.mem_cons_of_mem _ hp)) hsort c, ← covers_cons]

/-- Output intervals of the merge are well-formed if the inputs are. -/
theorem mergeWith₁_wf (l : List (Nat × Nat)) (hwf : ∀ p ∈ l, p.1 ≤ p.2) :
    ∀ b ∈ merge_intervals l, b.1 ≤ b.2 := by
  intro b hb
  have hperm := sortPairs_perm l
  have hwfs : ∀ p ∈ sortPairs l, p.1 ≤ p.2 := fun p hp => hwf p (hperm.mem_iff.1 hp)
  unfold merge_intervals mergeWithC at hb
  revert hb
  cases h : sortPairs l with
  | nil => intro hb; simp at hb
  | cons x rest =>
    intro hb
    rw [h] at hwfs
    obtain ⟨p, hp, h1, h2⟩ := mergeAuxC_mem _ rest x b hb
    have := hwfs p hp
    omega

/-- Down a gap-chain of well-formed intervals, the head's end stays
strictly below every later start. -/
theorem gap_head :
    ∀ (t : List (Nat × Nat)) (a : Nat × Nat), (∀ p ∈ t, p.1 ≤ p.2) →
      List.Chain' (fun a b : Nat × Nat => a.2 + 1 < b.1) (a :: t) →
      ∀ b ∈ t, a.2 + 1 < b.1 := by
  intro t
  induction t with
  | nil => intro a _ _ b hb; simp at hb
  | cons x r ih =>
    intro a hwf hchain b hb
    rw [List.chain'_cons] at hchain
    rcases List.mem_cons.1 hb with rfl | hb'
    · exact hchain.1
    · have hx : x.1 ≤ x.2 := hwf x (List.mem_cons_self _ _)
      have := ih x (fun p hp => hwf p (List.mem_cons_of_mem _ hp)) hchain.2 b hb'
      omega

/-- A chain of the gap relation on well-formed intervals is pairwise. -/
theorem chain_gap_pairwise :
    ∀ (l : List (Nat × Nat)), (∀ p ∈ l, p.1 ≤ p.2) →
      List.Chain' (fun a b : Nat × Nat => a.2 + 1 < b.1) l →
      List.Pairwise (fun a b : Nat × Nat => a.2 + 1 < b.1) l := by
  intro l
  induction l with
  | nil => intro _ _; exact List.Pairwise.nil
  | cons a t ih =>
    intro hwf hchain
    have htwf : ∀ p ∈ t, p.1 ≤ p.2 := fun p hp => hwf p (List.mem_cons_of_mem _ hp)
    exact List.Pairwise.cons (gap_head t a htwf hchain)
      (ih htwf ((List.chain'_cons'.1 hchain).2))

/-- Claim C2 (counterexample): the module-level merge loop of
src/lib/EpdFont/scripts/fontconvert.py does not satisfy the claimed
combine rule: on `[(0,10),(11,20)]` it keeps the intervals separate
instead of producing `[(0,20)]`, because its condition is
`i_start + 1 <= last_end`, not `i_start <= last_end + 1`. -/
theorem lib_merge_adjacent_not_combined :
    lib_merge [(0, 10), (11, 20)] ≠ [(0, 20)] := by decide

/-- Claim C2 (amended): `merge_intervals` (src/scripts/fontconvert.py)
sorts ascending and combines when `next.start ≤ current.end + 1` with
the combined end the max of the two ends; empty input gives empty
output; it is idempotent; its output is sorted ascending, gap-chained,
and (for well-formed input) pairwise non-overlapping and non-adjacent;
the two concrete examples hold.  The module-level loop of
src/lib/EpdFont/scripts/fontconvert.py instead combines only when
`next.start + 1 ≤ current.end` (strict overlap): it leaves
`[(0,10),(11,20)]` unchanged but does merge `[(0,10),(9,20)]`; it is
likewise idempotent. -/
theorem merge_intervals_props :
    merge_intervals [] = [] ∧
    merge_intervals [(0, 10), (11, 20)] = [(0, 20)] ∧
    merge_intervals [(0, 10), (12, 20)] = [(0, 10), (12, 20)] ∧
    (∀ l, merge_intervals (merge_intervals l) = merge_intervals l) ∧
    (∀ l, List.Sorted lexLe (merge_intervals l)) ∧
    (∀ l, List.Chain' (fun a b : Nat × Nat => a.2 + 1 < b.1) (merge_intervals l)) ∧
    (∀ l, (∀ p ∈ l, p.1 ≤ p.2) →
      List.Pairwise (fun a b : Nat × Nat => a.2 + 1 < b.1) (merge_intervals l)) ∧
    (∀ l, lib_merge (lib_merge l) = lib_merge l) ∧
    lib_merge [(0, 10), (11, 20)] = [(0, 10), (11, 20)] ∧
    lib_merge [(0, 10), (9, 20)] = [(0, 20)] := by
  have hchain : ∀ l, List.Chain' (fun a b : Nat × Nat => a.2 + 1 < b.1)
      (merge_intervals l) := by
    intro l
    have := mergeWithC_chain (fun curEnd s => s ≤ curEnd + 1) l
    exact this.imp (fun a b h => by omega)
  refine ⟨by decide, by decide, by decide,
    fun l => mergeWithC_idem _ l,
    fun l => mergeWithC_sorted _ l,
    hchain,
    fun l hwf => chain_gap_pairwise _ (mergeWith₁_wf l hwf) (hchain l),
    fun l => mergeWithC_idem _ l,
    by decide, by decide⟩

theorem merge_intervals_props_witness :
    (∀ p ∈ [((0 : Nat), (5 : Nat)), (3, 9)], p.1 ≤ p.2) ∧
    List.Pairwise (fun a b : Nat × Nat => a.2 + 1 < b.1)
      (merge_intervals [(0, 5), (3, 9)]) :=
  ⟨by decide, merge_intervals_props.2.2.2.2.2.2.1 [(0, 5), (3, 9)] (by decide)⟩

/-- Claim C10: `merge_intervals` preserves coverage exactly: for
well-formed input intervals, a code point is covered by the merged
list iff it is covered by the input list. -/
theorem merge_intervals_coverage (l : List (Nat × Nat))
    (hwf : ∀ p ∈ l, p.1 ≤ p.2) (c : Nat) :
    covers (merge_intervals l) c ↔ covers l c :=
  merge_intervals_covers l hwf c

theorem merge_intervals_coverage_witness :
    (∀ p ∈ [((0 : Nat), (5 : Nat)), (4, 9)], p.1 ≤ p.2) ∧
    (covers (merge_intervals [(0, 5), (4, 9)]) 7 ↔
      covers [((0 : Nat), (5 : Nat)), (4, 9)] 7) :=
  ⟨by decide, merge_intervals_coverage [(0, 5), (4, 9)] (by decide) 7⟩

/-! ### Encoder lemmas -/

/-- Processing one full row (entered with the accumulator clear and the
column even) emits exactly the packed row. -/
theorem build4bitGo_row (w : Nat) :
    ∀ (t rest : List Nat) (i : Nat),
      ((i % w) % 2 = 0 ∧ i % w + t.length = w) ∨ t = [] →
      build4bitGo w i 0 (t ++ rest) =
        rowPack t ++ build4bitGo w (i + t.length) 0 rest := by
  intro t
  induction t using rowPack.induct with
  | case1 =>
    intro rest i _
    simp [rowPack]
  | case2 a =>
    intro rest i h
    rcases h with ⟨hpar, hlen⟩ | h
    · simp only [List.length_singleton] at hlen
      simp only [List.singleton_append, build4bitGo]
      rw [if_pos hpar, if_pos ⟨by omega, by omega⟩]
      simp [rowPack]
    · simp at h
  | case3 a b t ih =>
    intro rest i h
    rcases h with ⟨hpar, hlen⟩ | h
    · simp only [List.length_cons] at hlen
      have hw2 : 2 ≤ w := by omega
      have h1w : 1 % w = 1 := Nat.mod_eq_of_lt (by omega)
      have hx1 : (i + 1) % w = i % w + 1 := by
        rw [Nat.add_mod, h1w, Nat.mod_eq_of_lt (by omega)]
      simp only [List.cons_append, build4bitGo]
      rw [if_pos hpar, if_neg (by omega), if_neg (by rw [hx1]; omega),
        if_neg (by rw [hx1]; omega)]
      have hstep : ((i + 2) % w) % 2 = 0 ∧ (i + 2) % w + t.length = w ∨ t = [] := by
        rcases t with _ | ⟨c, t'⟩
        · exact Or.inr rfl
        · left
          have hw3 : 2 % w = 2 := Nat.mod_eq_of_lt (by simp at hlen; omega)
          have ht : (i + 2) % w = i % w + 2 := by
            rw [Nat.add_mod, hw3, Nat.mod_eq_of_lt (by simp at hlen; omega)]
          rw [ht]
          simp at hlen ⊢
          omega
      have h12 : i + 1 + 1 = i + 2 := by omega
      have hidx : i + 2 + t.length = i + (t.length + 1 + 1) := by omega
      simp only [List.append_eq, h12]
      rw [ih rest (i + 2) hstep, hidx]
      simp [rowPack]
    · simp at h

/-- Emptiness of `rowsPack` on the empty buffer. -/
theorem rowsPack_nil (w : Nat) : ∀ h, rowsPack w h [] = [] := by
  intro h
  induction h with
  | zero => rfl
  | succ h ih => simp [rowsPack, rowPack, ih]

/-- The 4-bit build loop, over a buffer of exactly `h` rows, is the
row-by-row packing. -/
theorem build4bitGo_rows (w : Nat) (hw : 0 < w) :
    ∀ (h : Nat) (buf : List Nat) (i : Nat), i % w = 0 → buf.length = w * h →
      build4bitGo w i 0 buf = rowsPack w h buf := by
  intro h
  induction h with
  | zero =>
    intro buf i _ hlen
    have : buf = [] := List.eq_nil_of_length_eq_zero (by omega)
    subst this
    rfl
  | succ h ih =>
    intro buf i hi hlen
    have hwle : w ≤ buf.length := by
      rw [hlen, Nat.mul_succ]; omega
    have hlt : (buf.take w).length = w := by
      rw [List.length_take]; omega
    conv_lhs => rw [← List.take_append_drop w buf]
    rw [build4bitGo_row w (buf.take w) (buf.drop w) i
      (Or.inl ⟨by simp [hi], by rw [hlt]; omega⟩)]
    show rowPack (buf.take w) ++ _ = rowsPack w (h + 1) buf
    rw [rowsPack, hlt]
    congr 1
    apply ih
    · simp [Nat.add_mod, hi]
    · rw [List.length_drop, hlen, Nat.mul_succ]; omega

theorem build4bit_eq (w h : Nat) (buf : List Nat) (hlen : buf.length = w * h) :
    build4bit w buf = rowsPack w h buf := by
  rcases Nat.eq_zero_or_pos w with rfl | hw
  · have : buf = [] := List.eq_nil_of_length_eq_zero (by simpa using hlen)
    subst this
    rw [rowsPack_nil]
    rfl
  · exact build4bitGo_rows w hw h buf 0 (Nat.zero_mod w) hlen

theorem rowPack_length : ∀ (t : List Nat), (rowPack t).length = (t.length + 1) / 2 := by
  intro t
  induction t using rowPack.induct with
  | case1 => rfl
  | case2 a => simp [rowPack]
  | case3 a b t ih => simp [rowPack, ih]; omega

theorem rowsPack_length (w : Nat) :
    ∀ (h : Nat) (buf : List Nat), buf.length = w * h →
      (rowsPack w h buf).length = h * ((w + 1) / 2) := by
  intro h
  induction h with
  | zero => intro buf _; simp [rowsPack]
  | succ h ih =>
    intro buf hlen
    have hwle : w ≤ buf.length := by rw [hlen, Nat.mul_succ]; omega
    rw [rowsPack, List.length_append, rowPack_length, List.length_take,
      ih (buf.drop w) (by rw [List.length_drop, hlen, Nat.mul_succ]; omega)]
    have : min w buf.length = w := by omega
    rw [this, Nat.succ_mul]
    omega

/-- Indexing into a flattened list of constant-length rows. -/
theorem flat_getD :
    ∀ (rows : List (List Nat)) (pitch y j : Nat),
      (∀ r ∈ rows, r.length = pitch) → y < rows.length → j < pitch →
      rows.flatten.getD (y * pitch + j) 0 = (rows.getD y []).getD j 0 := by
  intro rows
  induction rows with
  | nil => intro _ y _ _ hy _; simp at hy
  | cons r rs ih =>
    intro pitch y j hlen hy hj
    have hr : r.length = pitch := hlen r (List.mem_cons_self _ _)
    cases y with
    | zero =>
      rw [List.flatten_cons, Nat.zero_mul, Nat.zero_add,
        List.getD_append _ _ _ _ (by omega), List.getD_cons_zero]
    | succ y =>
      rw [List.flatten_cons, List.getD_append_right _ _ _ _ (by rw [hr]; nlinarith),
        List.getD_cons_succ]
      have : (y + 1) * pitch + j - r.length = y * pitch + j := by
        rw [hr, Nat.succ_mul]; omega
      rw [this]
      exact ih pitch y j (fun x hx => hlen x (List.mem_cons_of_mem _ hx))
        (by simpa using hy) hj

/-- Bytes below 256 have a high nibble below 16. -/
theorem shift4_lt : ∀ b < 256, b >>> 4 < 16 := by decide

/-- The low-nibble mask on the 0xF0 mask. -/
theorem and_f0_eq : ∀ b < 256, b &&& 0xF0 = (b >>> 4) <<< 4 := by decide

theorem and_15_eq : ∀ p < 16, p &&& 0xF = p := by decide

/-- Nibble extraction from a packed pair. -/
theorem nibble_pair : ∀ p < 16, ∀ r < 16,
    (p ||| (r <<< 4)) &&& 0xF = p ∧ ((p ||| (r <<< 4)) >>> 4) &&& 0xF = r := by
  decide

/-- All entries of a byte list, read with default 0, are below 256. -/
theorem getD_lt_256 (l : List Nat) (hval : ∀ v ∈ l, v < 256) (i : Nat) :
    l.getD i 0 < 256 := by
  by_cases hi : i < l.length
  · rw [List.getD_eq_getElem _ _ hi]
    exact hval _ (List.getElem_mem hi)
  · rw [List.getD_eq_default _ _ (by omega)]
    omega

/-- Nibble access into one packed row recovers the high nibble of the
corresponding source byte. -/
theorem rowPack_getD :
    ∀ (row : List Nat), (∀ v ∈ row, v < 256) → ∀ x, x < row.length →
      ((rowPack row).getD (x / 2) 0 >>> ((x % 2) * 4)) &&& 0xF =
        (row.getD x 0) >>> 4 := by
  intro row
  induction row using rowPack.induct with
  | case1 => intro _ x hx; simp at hx
  | case2 a =>
    intro hval x hx
    have : x = 0 := by simpa using hx
    subst this
    have ha : a < 256 := hval a (List.mem_singleton_self a)
    simp only [rowPack, List.getD_cons_zero, Nat.zero_div, Nat.zero_mod,
      Nat.zero_mul, Nat.shiftRight_zero]
    exact and_15_eq _ (shift4_lt a ha)
  | case3 a b t ih =>
    intro hval x hx
    have ha : a < 256 := hval a (List.mem_cons_self _ _)
    have hb : b < 256 := hval b (List.mem_cons_of_mem _ (List.mem_cons_self _ _))
    have hpair := nibble_pair (a >>> 4) (shift4_lt a ha) (b >>> 4) (shift4_lt b hb)
    match x with
    | 0 =>
      simp only [rowPack, List.getD_cons_zero, Nat.zero_div, Nat.zero_mod,
        Nat.zero_mul, Nat.shiftRight_zero]
      rw [and_f0_eq b hb]
      exact hpair.1
    | 1 =>
      simp only [rowPack, List.getD_cons_zero, List.getD_cons_succ]
      norm_num
      rw [and_f0_eq b hb]
      exact hpair.2
    | x + 2 =>
      have h1 : (x + 2) / 2 = x / 2 + 1 := by omega
      have h2 : (x + 2) % 2 = x % 2 := by omega
      simp only [rowPack, h1, h2, List.getD_cons_succ]
      exact ih (fun v hv => hval v (List.mem_cons_of_mem _ (List.mem_cons_of_mem _ hv)))
        x (by simpa using hx)

/-- An element of `take`-of-`drop`, read through `getD`. -/
theorem getD_drop_take (l : List Nat) (n k x : Nat) (hx : x < k)
    (hb : n + x < l.length) :
    ((l.drop n).take k).getD x 0 = l.getD (n + x) 0 := by
  have hlen : x < ((l.drop n).take k).length := by
    rw [List.length_take, List.length_drop]; omega
  rw [List.getD_eq_getElem _ _ hlen, List.getD_eq_getElem _ _ hb,
    List.getElem_take, List.getElem_drop]

/-- Row extraction from `rowsPack`. -/
theorem rowsPack_getD (w : Nat) :
    ∀ (h : Nat) (buf : List Nat) (y j : Nat),
      buf.length = w * h → y < h → j < (w + 1) / 2 →
      (rowsPack w h buf).getD (y * ((w + 1) / 2) + j) 0 =
        (rowPack ((buf.drop (y * w)).take w)).getD j 0 := by
  intro h
  induction h with
  | zero => intro buf y j _ hy _; omega
  | succ h ih =>
    intro buf y j hlen hy hj
    have hwle : w ≤ buf.length := by rw [hlen, Nat.mul_succ]; omega
    have htake : (buf.take w).length = w := by rw [List.length_take]; omega
    have hblock : (rowPack (buf.take w)).length = (w + 1) / 2 := by
      rw [rowPack_length, htake]
    cases y with
    | zero =>
      rw [rowsPack, Nat.zero_mul, Nat.zero_add,
        List.getD_append _ _ _ _ (by omega), Nat.zero_mul, List.drop_zero]
    | succ y =>
      rw [rowsPack, List.getD_append_right _ _ _ _ (by rw [hblock]; nlinarith)]
      have hsub : (y + 1) * ((w + 1) / 2) + j - (rowPack (buf.take w)).length =
          y * ((w + 1) / 2) + j := by
        rw [hblock, Nat.succ_mul]; omega
      rw [hsub, ih (buf.drop w) y j
        (by rw [List.length_drop, hlen, Nat.mul_succ]; omega)
        (by omega) hj, List.drop_drop]
      have : w + y * w = (y + 1) * w := by ring
      rw [this]

/-- The fontconvert 4-bit read recovers each pixel's high nibble. -/
theorem build4bit_pix (w h : Nat) (buf : List Nat) (hlen : buf.length = w * h)
    (hval : ∀ v ∈ buf, v < 256) (x y : Nat) (hx : x < w) (hy : y < h) :
    pix4get (build4bit w buf) (w / 2 + w % 2) x y =
      (buf.getD (y * w + x) 0) >>> 4 := by
  have hp : w / 2 + w % 2 = (w + 1) / 2 := by omega
  have hys : y * w + w ≤ buf.length := by
    rw [hlen]
    calc y * w + w = (y + 1) * w := by ring
    _ ≤ h * w := Nat.mul_le_mul_right w hy
    _ = w * h := by ring
  have hyw : y * w + x < buf.length := by omega
  have hrow : ((buf.drop (y * w)).take w).length = w := by
    rw [List.length_take, List.length_drop]
    omega
  have hrval : ∀ v ∈ (buf.drop (y * w)).take w, v < 256 := fun v hv =>
    hval v (List.mem_of_mem_drop (List.mem_of_mem_take hv))
  rw [pix4get, hp, build4bit_eq w h buf hlen,
    rowsPack_getD w h buf y (x / 2) hlen hy (by omega),
    rowPack_getD ((buf.drop (y * w)).take w) hrval x (by rw [hrow]; exact hx),
    getD_drop_take buf (y * w) w x hx hyw]

/-- Length of the convert_theme_fonts 4-bit build. -/
theorem ctf_build_length (w h : Nat) (buf : List Nat) :
    (_build_4bit_grayscale w h buf).length = h * ((w + 1) / 2) := by
  unfold _build_4bit_grayscale
  rw [List.length_flatten, List.map_map]
  have : ∀ y ∈ List.range h,
      (List.length ∘ fun y => (List.range ((w + 1) / 2)).map fun j =>
        (buf.getD (y * w + 2 * j) 0) >>> 4 |||
          (if 2 * j + 1 < w then ((buf.getD (y * w + 2 * j + 1) 0) >>> 4) <<< 4
           else 0)) y = (w + 1) / 2 := by
    intro y _
    simp
  rw [List.map_congr_left this]
  simp [List.map_const', Nat.mul_comm]

/-- Reading a mapped range through `getD` inside the bound. -/
theorem getD_map_range {A : Type} (f : Nat → A) (d : A) (n j : Nat)
    (hj : j < n) : ((List.range n).map f).getD j d = f j := by
  rw [List.getD_eq_getElem _ _ (by simpa using hj), List.getElem_map,
    List.getElem_range]

/-- Element access in the convert_theme_fonts 4-bit build. -/
theorem ctf_build_row_getD (w h : Nat) (buf : List Nat) (y j : Nat)
    (hy : y < h) (hj : j < (w + 1) / 2) :
    (_build_4bit_grayscale w h buf).getD (y * ((w + 1) / 2) + j) 0 =
      (buf.getD (y * w + 2 * j) 0) >>> 4 |||
        (if 2 * j + 1 < w then ((buf.getD (y * w + 2 * j + 1) 0) >>> 4) <<< 4
         else 0) := by
  unfold _build_4bit_grayscale
  rw [flat_getD _ ((w + 1) / 2) y j (by intro r hr; simp at hr; obtain ⟨a, _, rfl⟩ := hr; simp)
    (by simpa using hy) hj,
    getD_map_range _ _ _ _ (by simpa using hy),
    getD_map_range _ _ _ _ (by simpa using hj)]

/-- The ctf 4-bit nibble read recovers each pixel's high nibble. -/
theorem ctf_build_pix (w h : Nat) (buf : List Nat) (hlen : buf.length = w * h)
    (hval : ∀ v ∈ buf, v < 256) (x y : Nat) (hx : x < w) (hy : y < h) :
    (((_build_4bit_grayscale w h buf).getD (y * ((w + 1) / 2) + x / 2) 0) >>>
        ((x % 2) * 4)) &&& 0xF = (buf.getD (y * w + x) 0) >>> 4 := by
  rw [ctf_build_row_getD w h buf y (x / 2) hy (by omega)]
  have hpar : x % 2 = 0 ∨ x % 2 = 1 := by omega
  rcases hpar with hpar | hpar
  · have hxx : 2 * (x / 2) = x := by omega
    rw [hxx, hpar, Nat.zero_mul, Nat.shiftRight_zero]
    by_cases hx1 : x + 1 < w
    · rw [if_pos hx1]
      exact (nibble_pair _ (shift4_lt _ (getD_lt_256 buf hval _)) _
        (shift4_lt _ (getD_lt_256 buf hval _))).1
    · rw [if_neg hx1, Nat.or_zero]
      exact and_15_eq _ (shift4_lt _ (getD_lt_256 buf hval _))
  · have hxx : 2 * (x / 2) = x - 1 := by omega
    have hx1 : x - 1 + 1 = x := by omega
    rw [hxx, hpar, Nat.one_mul]
    rw [if_pos (by omega)]
    have hidx : y * w + (x - 1) + 1 = y * w + x := by omega
    rw [hidx]
    exact (nibble_pair _ (shift4_lt _ (getD_lt_256 buf hval (y * w + (x - 1)))) _
      (shift4_lt _ (getD_lt_256 buf hval (y * w + x)))).2

/-- The two out-of-bounds guards of `_get_pixel_4bit` never fire for an
in-range pixel, and the read index is in bounds. -/
theorem _get_pixel_4bit_in_bounds (w h : Nat) (buf : List Nat)
    (x y : Nat) (hx : x < w) (hy : y < h) :
    y * ((w + 1) / 2) + x / 2 < (_build_4bit_grayscale w h buf).length ∧
    _get_pixel_4bit (_build_4bit_grayscale w h buf) ((w + 1) / 2) x y =
      (((_build_4bit_grayscale w h buf).getD (y * ((w + 1) / 2) + x / 2) 0) >>>
        ((x % 2) * 4)) &&& 0xF := by
  have hpitch : 0 < (w + 1) / 2 := by omega
  have hlen := ctf_build_length w h buf
  have hidx : y * ((w + 1) / 2) + x / 2 < h * ((w + 1) / 2) := by
    calc y * ((w + 1) / 2) + x / 2 < y * ((w + 1) / 2) + (w + 1) / 2 := by omega
    _ = (y + 1) * ((w + 1) / 2) := by ring
    _ ≤ h * ((w + 1) / 2) := Nat.mul_le_mul_right _ hy
  refine ⟨by omega, ?_⟩
  unfold _get_pixel_4bit
  rw [if_neg, if_neg]
  · omega
  · push_neg
    refine ⟨by omega, ?_⟩
    intro hnil
    rw [hnil] at hlen
    simp at hlen
    omega

/-- The nested pixel loops visit exactly the row-major pixel indices. -/
theorem pixList_eq (w h : Nat) :
    pixList w h = (List.range (w * h)).map (fun p => (p / w, p % w)) := by
  rcases Nat.eq_zero_or_pos w with rfl | hw
  · simp [pixList]
  · induction h with
    | zero => simp [pixList]
    | succ h ih =>
      unfold pixList at ih ⊢
      rw [List.range_succ, List.map_append, List.flatten_append,
        Nat.mul_succ, List.range_add, List.map_append, ih]
      congr 1
      simp only [List.map_cons, List.map_nil, List.flatten_cons,
        List.flatten_nil, List.append_nil, List.map_map]
      apply List.map_congr_left
      intro x hx
      have hxw : x < w := List.mem_range.1 hx
      simp only [Function.comp_apply]
      have h1 : (w * h + x) / w = h := by
        rw [Nat.add_comm, Nat.add_mul_div_left _ _ hw, Nat.div_eq_of_lt hxw,
          Nat.zero_add]
      have h2 : (w * h + x) % w = x := by
        rw [Nat.add_comm, Nat.add_mul_mod_self_left, Nat.mod_eq_of_lt hxw]
      rw [h1, h2]

/-- Bridge from the coordinate loop to the indexed packing fold. -/
theorem scanEmit_eq_packVals (k w bpp : Nat) (q : Nat → Nat → Nat) :
    ∀ (n s px : Nat),
      scanEmit k w (fun y x px => (px <<< bpp) + q y x)
          ((List.range' s n).map (fun p => (p / w, p % w))) px
        = packVals k bpp ((List.range' s n).map (fun p => q (p / w) (p % w))) s px := by
  intro n
  induction n with
  | zero => intro s px; rfl
  | succ n ih =>
    intro s px
    rw [List.range'_succ]
    simp only [List.map_cons, scanEmit, packVals]
    rw [Nat.div_add_mod']
    by_cases hc : s % k = k - 1
    · rw [if_pos hc, if_pos hc, ih]
    · rw [if_neg hc, if_neg hc, ih]

/-- The emitted byte count of the packing fold. -/
theorem packVals_length (k bpp : Nat) :
    ∀ (vals : List Nat) (s px : Nat),
      (packVals k bpp vals s px).1.length =
        (List.range' s vals.length).countP (fun p => decide (p % k = k - 1)) := by
  intro vals
  induction vals with
  | nil => intro s px; rfl
  | cons v rest ih =>
    intro s px
    rw [List.length_cons, List.range'_succ, List.countP_cons]
    simp only [packVals]
    by_cases hc : s % k = k - 1
    · rw [if_pos hc, if_pos (by simpa using hc)]
      simp [ih]
    · rw [if_neg hc, if_neg (by simpa using hc)]
      simp [ih]

/-- Emit positions in a run of consecutive pixel indices, 4 per byte. -/
theorem countP_range'_mod4 :
    ∀ (n s : Nat),
      (List.range' s n).countP (fun p => decide (p % 4 = 3)) = (s % 4 + n) / 4 := by
  intro n
  induction n with
  | zero => intro s; simp
  | succ n ih =>
    intro s
    rw [List.range'_succ, List.countP_cons, ih (s + 1)]
    simp only [decide_eq_true_eq]
    by_cases hc : s % 4 = 3
    · rw [if_pos hc]
      have h1 : (s + 1) % 4 = 0 := by omega
      rw [h1]
      omega
    · rw [if_neg hc]
      have h1 : (s + 1) % 4 = s % 4 + 1 := by omega
      rw [h1]
      omega

/-- Emit positions in a run of consecutive pixel indices, 8 per byte. -/
theorem countP_range'_mod8 :
    ∀ (n s : Nat),
      (List.range' s n).countP (fun p => decide (p % 8 = 7)) = (s % 8 + n) / 8 := by
  intro n
  induction n with
  | zero => intro s; simp
  | succ n ih =>
    intro s
    rw [List.range'_succ, List.countP_cons, ih (s + 1)]
    simp only [decide_eq_true_eq]
    by_cases hc : s % 8 = 7
    · rw [if_pos hc]
      have h1 : (s + 1) % 8 = 0 := by omega
      rw [h1]
      omega
    · rw [if_neg hc]
      have h1 : (s + 1) % 8 = s % 8 + 1 := by omega
      rw [h1]
      omega

/-- The downsample loops emit one byte per full group of `k` pixels. -/
theorem scanEmit_length (k w : Nat) (f : Nat → Nat → Nat → Nat) :
    ∀ (l : List (Nat × Nat)) (px : Nat),
      (scanEmit k w f l px).1.length =
        l.countP (fun yx => decide ((yx.1 * w + yx.2) % k = k - 1)) := by
  intro l
  induction l with
  | nil => intro px; rfl
  | cons yx rest ih =>
    intro px
    obtain ⟨y, x⟩ := yx
    rw [List.countP_cons]
    simp only [scanEmit, decide_eq_true_eq]
    by_cases hc : (y * w + x) % k = k - 1
    · rw [if_pos hc, if_pos hc]
      simp [ih]
    · rw [if_neg hc, if_neg hc]
      simp [ih]

theorem scanEmit_pixList_length (k w h : Nat) (hk : k = 4 ∨ k = 8)
    (f : Nat → Nat → Nat → Nat) (px : Nat) :
    (scanEmit k w f (pixList w h) px).1.length = (w * h) / k := by
  rw [scanEmit_length, pixList_eq, List.countP_map]
  have hcong : ∀ p ∈ List.range (w * h),
      ((fun yx : Nat × Nat => decide ((yx.1 * w + yx.2) % k = k - 1)) ∘
        (fun p => (p / w, p % w))) p = decide (p % k = k - 1) := by
    intro p _
    simp only [Function.comp_apply]
    rw [Nat.div_add_mod']
  rw [List.countP_congr (fun x hx => by rw [hcong x hx]), List.range_eq_range']
  rcases hk with rfl | rfl
  · rw [countP_range'_mod4]
    simp
  · rw [countP_range'_mod8]
    simp

/-- Claim C1: each encoder emits exactly
`ceil(width * height * bitsPerPixel / 8)` bytes; a zero-width or
zero-height bitmap yields the empty byte sequence.  This covers
`render_glyph_1bit` / `render_glyph_2bit` of src/scripts/fontconvert.py
and `_render_downsampled` (both modes) of
src/scripts/convert_theme_fonts.py. -/
theorem encoder_output_length (bm : FTBitmap)
    (hlen : bm.buffer.length = bm.width * bm.rows) :
    (render_glyph_1bit bm).length = (bm.width * bm.rows * 1 + 7) / 8 ∧
    (render_glyph_2bit bm).length = (bm.width * bm.rows * 2 + 7) / 8 ∧
    (∀ pixels4g, (_render_downsampled bm pixels4g false).length =
      (bm.width * bm.rows * 1 + 7) / 8) ∧
    (∀ pixels4g, (_render_downsampled bm pixels4g true).length =
      (bm.width * bm.rows * 2 + 7) / 8) ∧
    (bm.width = 0 ∨ bm.rows = 0 →
      render_glyph_1bit bm = [] ∧ render_glyph_2bit bm = [] ∧
      ∀ pixels4g is2bit, _render_downsampled bm pixels4g is2bit = []) := by
  have h1 : (render_glyph_1bit bm).length = (bm.width * bm.rows * 1 + 7) / 8 := by
    unfold render_glyph_1bit
    by_cases hmod : (bm.width * bm.rows) % 8 = 0
    · simp only [hmod, ne_eq, not_true_eq_false, if_false]
      rw [scanEmit_pixList_length 8 _ _ (Or.inr rfl)]
      omega
    · simp only [ne_eq, hmod, not_false_eq_true, if_true, List.length_append,
        List.length_singleton]
      rw [scanEmit_pixList_length 8 _ _ (Or.inr rfl)]
      omega
  have h2 : (render_glyph_2bit bm).length = (bm.width * bm.rows * 2 + 7) / 8 := by
    unfold render_glyph_2bit
    by_cases hmod : (bm.width * bm.rows) % 4 = 0
    · simp only [hmod, ne_eq, not_true_eq_false, if_false]
      rw [scanEmit_pixList_length 4 _ _ (Or.inl rfl)]
      omega
    · simp only [ne_eq, hmod, not_false_eq_true, if_true, List.length_append,
        List.length_singleton]
      rw [scanEmit_pixList_length 4 _ _ (Or.inl rfl)]
      omega
  have h3 : ∀ pixels4g, (_render_downsampled bm pixels4g false).length =
      (bm.width * bm.rows * 1 + 7) / 8 := by
    intro pixels4g
    unfold _render_downsampled
    simp only [Bool.false_eq_true, if_false]
    by_cases hmod : (bm.width * bm.rows) % 8 = 0
    · simp only [hmod, ne_eq, not_true_eq_false, if_false]
      rw [scanEmit_pixList_length 8 _ _ (Or.inr rfl)]
      omega
    · simp only [ne_eq, hmod, not_false_eq_true, if_true, List.length_append,
        List.length_singleton]
      rw [scanEmit_pixList_length 8 _ _ (Or.inr rfl)]
      omega
  have h4 : ∀ pixels4g, (_render_downsampled bm pixels4g true).length =
      (bm.width * bm.rows * 2 + 7) / 8 := by
    intro pixels4g
    unfold _render_downsampled
    simp only [if_true]
    by_cases hmod : (bm.width * bm.rows) % 4 = 0
    · simp only [hmod, ne_eq, not_true_eq_false, if_false]
      rw [scanEmit_pixList_length 4 _ _ (Or.inl rfl)]
      omega
    · simp only [ne_eq, hmod, not_false_eq_true, if_true, List.length_append,
        List.length_singleton]
      rw [scanEmit_pixList_length 4 _ _ (Or.inl rfl)]
      omega
  refine ⟨h1, h2, h3, h4, fun hz => ⟨?_, ?_, ?_⟩⟩
  · exact List.eq_nil_of_length_eq_zero (by rw [h1]; rcases hz with hz | hz <;>
      rw [hz] <;> simp)
  · exact List.eq_nil_of_length_eq_zero (by rw [h2]; rcases hz with hz | hz <;>
      rw [hz] <;> simp)
  · intro pixels4g is2bit
    rcases is2bit with _ | _
    · exact List.eq_nil_of_length_eq_zero (by rw [h3 pixels4g]; rcases hz with hz | hz <;>
        rw [hz] <;> simp)
    · exact List.eq_nil_of_length_eq_zero (by rw [h4 pixels4g]; rcases hz with hz | hz <;>
        rw [hz] <;> simp)

theorem encoder_output_length_witness :
    ([(40 : Nat), 41, 42, 43, 44, 45] : List Nat).length = 3 * 2 ∧
    (render_glyph_2bit ⟨3, 2, [40, 41, 42, 43, 44, 45]⟩).length = (3 * 2 * 2 + 7) / 8 :=
  ⟨by decide, (encoder_output_length ⟨3, 2, [40, 41, 42, 43, 44, 45]⟩ (by decide)).2.1⟩

/-- Claim C9: for a buffer of length `width * rows`, every indexed read
of the encoders stays inside the declared bounds: the 4-bit
intermediate reads of the fontconvert downsample loops
(`pixels4g[y * pitch + x // 2]` over `build4bit`), the 8-bit source
reads of `_build_4bit_grayscale`, and the indexed read of
`_get_pixel_4bit`, whose two out-of-bounds guard branches are
unreachable (the guarded read equals the raw read). -/
theorem encoder_reads_in_bounds (w h : Nat) (buf : List Nat)
    (hlen : buf.length = w * h) :
    (∀ y x, y < h → x < w →
      y * (w / 2 + w % 2) + x / 2 < (build4bit w buf).length) ∧
    (∀ y j, y < h → j < (w + 1) / 2 →
      y * w + 2 * j < buf.length ∧
        (2 * j + 1 < w → y * w + 2 * j + 1 < buf.length)) ∧
    (∀ y x, y < h → x < w →
      y * ((w + 1) / 2) + x / 2 < (_build_4bit_grayscale w h buf).length ∧
      _get_pixel_4bit (_build_4bit_grayscale w h buf) ((w + 1) / 2) x y =
        (((_build_4bit_grayscale w h buf).getD (y * ((w + 1) / 2) + x / 2) 0) >>>
          ((x % 2) * 4)) &&& 0xF) := by
  refine ⟨fun y x hy hx => ?_, fun y j hy hj => ?_, fun y x hy hx =>
    _get_pixel_4bit_in_bounds w h buf x y hx hy⟩
  · have hp : w / 2 + w % 2 = (w + 1) / 2 := by omega
    rw [hp, build4bit_eq w h buf hlen, rowsPack_length w h buf hlen]
    calc y * ((w + 1) / 2) + x / 2 < y * ((w + 1) / 2) + (w + 1) / 2 := by omega
    _ = (y + 1) * ((w + 1) / 2) := by ring
    _ ≤ h * ((w + 1) / 2) := Nat.mul_le_mul_right _ hy
  · have hys : y * w + w ≤ buf.length := by
      rw [hlen]
      calc y * w + w = (y + 1) * w := by ring
      _ ≤ h * w := Nat.mul_le_mul_right w hy
      _ = w * h := by ring
    constructor
    · omega
    · intro hjw
      omega

theorem encoder_reads_in_bounds_witness :
    ([(9 : Nat), 8, 7, 6, 5, 250] : List Nat).length = 3 * 2 ∧
    _get_pixel_4bit (_build_4bit_grayscale 3 2 [9, 8, 7, 6, 5, 250]) ((3 + 1) / 2) 2 1 =
      (((_build_4bit_grayscale 3 2 [9, 8, 7, 6, 5, 250]).getD
        (1 * ((3 + 1) / 2) + 2 / 2) 0) >>> ((2 % 2) * 4)) &&& 0xF :=
  ⟨by decide,
    ((encoder_reads_in_bounds 3 2 [9, 8, 7, 6, 5, 250] (by decide)).2.2 1 2
      (by decide) (by decide)).2⟩

/-- A mapped byte list equals the index-mapped range over its reads. -/
theorem map_eq_range_getD (g : Nat → Nat) (l : List Nat) :
    l.map g = (List.range l.length).map (fun p => g (l.getD p 0)) := by
  apply List.ext_getElem (by simp)
  intro i h1 h2
  simp only [List.getElem_map, List.getElem_range]
  rw [List.getD_eq_getElem _ _ (by simpa using h1)]

/-- Packing a small value into the cleared low bits is addition. -/
theorem shiftLeft_or_eq_add (bpp q m : Nat) (hq : q < 2 ^ bpp) :
    (m <<< bpp) ||| q = (m <<< bpp) + q := by
  rw [Nat.shiftLeft_eq, Nat.mul_comm]
  exact (Nat.mul_add_lt_is_or hq m).symm

theorem _quantize_pixel_lt_four (v : Nat) : _quantize_pixel v true < 4 := by
  unfold _quantize_pixel
  simp only [if_true]
  split_ifs <;> omega

/-- The indexed packing fold, with its final left-shifted remainder,
is the spec's 4-values-per-byte packer. -/
theorem packVals_pack2 :
    ∀ (vals : List Nat) (s : Nat), s % 4 = 0 →
      (packVals 4 2 vals s 0).1 ++
        (if vals.length % 4 ≠ 0 then
          [(packVals 4 2 vals s 0).2 <<< ((4 - vals.length % 4) * 2)] else [])
        = pack2_spec vals := by
  intro vals
  induction vals using pack2_spec.induct with
  | case1 a b c d rest ih =>
    intro s hs
    simp only [packVals]
    rw [if_neg (by omega), if_neg (by omega), if_neg (by omega), if_pos (by omega)]
    have hlen : (a :: b :: c :: d :: rest).length % 4 = rest.length % 4 := by
      simp only [List.length_cons]; omega
    rw [hlen]
    simp only [List.cons_append]
    rw [ih (s + 1 + 1 + 1 + 1) (by omega)]
    simp only [pack2_spec, Nat.shiftLeft_eq, Nat.zero_mul, Nat.zero_add,
      List.cons.injEq]
    norm_num
    try ring
  | case2 =>
    intro s _
    simp [packVals, pack2_spec]
  | case3 l h1 h2 =>
    intro s hs
    rcases l with _ | ⟨a, _ | ⟨b, _ | ⟨c, _ | ⟨d, rest⟩⟩⟩⟩
    · exact absurd rfl h2
    · simp only [packVals]
      rw [if_neg (by omega)]
      simp only [List.length_cons, List.length_nil]
      rw [if_pos (by omega)]
      simp only [pack2_spec, List.foldl_cons, List.foldl_nil, List.nil_append,
        List.length_cons, List.length_nil, Nat.shiftLeft_eq, Nat.zero_mul,
        Nat.zero_add, List.cons.injEq, and_true]
      norm_num
      try ring
    · simp only [packVals]
      rw [if_neg (by omega), if_neg (by omega)]
      simp only [List.length_cons, List.length_nil]
      rw [if_pos (by omega)]
      simp only [pack2_spec, List.foldl_cons, List.foldl_nil, List.nil_append,
        List.length_cons, List.length_nil, Nat.shiftLeft_eq, Nat.zero_mul,
        Nat.zero_add, List.cons.injEq, and_true]
      norm_num
      try ring
    · simp only [packVals]
      rw [if_neg (by omega), if_neg (by omega), if_neg (by omega)]
      simp only [List.length_cons, List.length_nil]
      rw [if_pos (by omega)]
      simp only [pack2_spec, List.foldl_cons, List.foldl_nil, List.nil_append,
        List.length_cons, List.length_nil, Nat.shiftLeft_eq, Nat.zero_mul,
        Nat.zero_add, List.cons.injEq, and_true]
      norm_num
      try ring
    · exact absurd rfl (h1 a b c d rest)

/-- The quantized sample stream of the fontconvert 2-bit encoder is the
per-byte high-nibble quantization. -/
theorem quant_stream_eq (w h : Nat) (buf : List Nat)
    (hlen : buf.length = w * h) (hval : ∀ v ∈ buf, v < 256) :
    (List.range (w * h)).map
        (fun p => quantize2_spec
          (pix4get (build4bit w buf) (w / 2 + w % 2) (p % w) (p / w))) =
      buf.map (fun v => quantize2_spec (v >>> 4)) := by
  rw [map_eq_range_getD (fun v => quantize2_spec (v >>> 4)) buf, hlen]
  apply List.map_congr_left
  intro p hp
  have hpn : p < w * h := List.mem_range.1 hp
  have hw : 0 < w := by
    rcases Nat.eq_zero_or_pos w with rfl | hw
    · simp at hpn
    · exact hw
  have hx : p % w < w := Nat.mod_lt p hw
  have hy : p / w < h := Nat.div_lt_of_lt_mul hpn
  rw [build4bit_pix w h buf hlen hval (p % w) (p / w) hx hy, Nat.div_add_mod']

/-- The fontconvert 2-bit encoder equals the spec encoder. -/
theorem render2_eq (w h : Nat) (buf : List Nat)
    (hlen : buf.length = w * h) (hval : ∀ v ∈ buf, v < 256) :
    render_glyph_2bit ⟨w, h, buf⟩ = encode2_spec ⟨w, h, buf⟩ := by
  have hstep : render_glyph_2bit ⟨w, h, buf⟩ =
      (let r := scanEmit 4 w
        (fun y x px => (px <<< 2) +
          quantize2_spec (pix4get (build4bit w buf) (w / 2 + w % 2) x y))
        (pixList w h) 0
       if (w * h) % 4 ≠ 0 then r.1 ++ [r.2 <<< ((4 - (w * h) % 4) * 2)]
       else r.1) := rfl
  rw [hstep, pixList_eq, List.range_eq_range',
    scanEmit_eq_packVals 4 w 2
      (fun y x => quantize2_spec (pix4get (build4bit w buf) (w / 2 + w % 2) x y))
      (w * h) 0 0]
  have hvals : (List.range' 0 (w * h)).map
      (fun p => quantize2_spec
        (pix4get (build4bit w buf) (w / 2 + w % 2) (p % w) (p / w))) =
      buf.map (fun v => quantize2_spec (v >>> 4)) := by
    rw [← List.range_eq_range']
    exact quant_stream_eq w h buf hlen hval
  rw [hvals]
  have hlenq : (buf.map (fun v => quantize2_spec (v >>> 4))).length = w * h := by
    rw [List.length_map, hlen]
  have hspec := packVals_pack2 (buf.map (fun v => quantize2_spec (v >>> 4))) 0
    (by omega)
  rw [hlenq] at hspec
  show (if (w * h) % 4 ≠ 0 then _ ++ [_] else _) = encode2_spec ⟨w, h, buf⟩
  by_cases hmod : (w * h) % 4 = 0
  · simp only [hmod, ne_eq, not_true_eq_false, if_false]
    rw [if_neg (by omega), List.append_nil] at hspec
    exact hspec
  · simp only [ne_eq, hmod, not_false_eq_true, if_true]
    rw [if_pos (by omega)] at hspec
    exact hspec

theorem _quantize_pixel_true (v : Nat) :
    _quantize_pixel v true = quantize2_spec v := rfl

/-- The convert_theme_fonts 2-bit encoder equals the spec encoder. -/
theorem ctf_render2_eq (w h : Nat) (buf : List Nat)
    (hlen : buf.length = w * h) (hval : ∀ v ∈ buf, v < 256) :
    _render_downsampled ⟨w, h, buf⟩ (_build_4bit_grayscale w h buf) true =
      encode2_spec ⟨w, h, buf⟩ := by
  have hfun : (fun y x px => (px <<< 2) |||
      _quantize_pixel (_get_pixel_4bit (_build_4bit_grayscale w h buf)
        ((w + 1) / 2) x y) true) =
      (fun y x px => (px <<< 2) +
        _quantize_pixel (_get_pixel_4bit (_build_4bit_grayscale w h buf)
          ((w + 1) / 2) x y) true) := by
    funext y x px
    exact shiftLeft_or_eq_add 2 _ px (by
      have := _quantize_pixel_lt_four
        (_get_pixel_4bit (_build_4bit_grayscale w h buf) ((w + 1) / 2) x y)
      norm_num
      omega)
  have hstep : _render_downsampled ⟨w, h, buf⟩ (_build_4bit_grayscale w h buf) true =
      (let r := scanEmit 4 w
        (fun y x px => (px <<< 2) |||
          _quantize_pixel (_get_pixel_4bit (_build_4bit_grayscale w h buf)
            ((w + 1) / 2) x y) true)
        (pixList w h) 0
       if (w * h) % 4 ≠ 0 then r.1 ++ [r.2 <<< ((4 - (w * h) % 4) * 2)]
       else r.1) := rfl
  rw [hstep, hfun, pixList_eq, List.range_eq_range',
    scanEmit_eq_packVals 4 w 2
      (fun y x => _quantize_pixel (_get_pixel_4bit (_build_4bit_grayscale w h buf)
        ((w + 1) / 2) x y) true)
      (w * h) 0 0]
  have hvals : (List.range' 0 (w * h)).map
      (fun p => _quantize_pixel (_get_pixel_4bit (_build_4bit_grayscale w h buf)
        ((w + 1) / 2) (p % w) (p / w)) true) =
      buf.map (fun v => quantize2_spec (v >>> 4)) := by
    rw [← List.range_eq_range',
      map_eq_range_getD (fun v => quantize2_spec (v >>> 4)) buf, hlen]
    apply List.map_congr_left
    intro p hp
    have hpn : p < w * h := List.mem_range.1 hp
    have hw : 0 < w := by
      rcases Nat.eq_zero_or_pos w with rfl | hw
      · simp at hpn
      · exact hw
    have hx : p % w < w := Nat.mod_lt p hw
    have hy : p / w < h := Nat.div_lt_of_lt_mul hpn
    rw [_quantize_pixel_true,
      (_get_pixel_4bit_in_bounds w h buf (p % w) (p / w) hx hy).2,
      ctf_build_pix w h buf hlen hval (p % w) (p / w) hx hy, Nat.div_add_mod']
  rw [hvals]
  have hlenq : (buf.map (fun v => quantize2_spec (v >>> 4))).length = w * h := by
    rw [List.length_map, hlen]
  have hspec := packVals_pack2 (buf.map (fun v => quantize2_spec (v >>> 4))) 0
    (by omega)
  rw [hlenq] at hspec
  show (if (w * h) % 4 ≠ 0 then _ ++ [_] else _) = encode2_spec ⟨w, h, buf⟩
  by_cases hmod : (w * h) % 4 = 0
  · simp only [hmod, ne_eq, not_true_eq_false, if_false]
    rw [if_neg (by omega), List.append_nil] at hspec
    exact hspec
  · simp only [ne_eq, hmod, not_false_eq_true, if_true]
    rw [if_pos (by omega)] at hspec
    exact hspec

/-- Claim C3: in 2-bit mode both encoders quantize each pixel's reduced
4-bit value by the thresholds `≥12→3, ≥8→2, ≥4→1, else 0` and pack four
pixels per byte, most-significant pair first, left-shifting the final
partial byte: they coincide with the spec encoder `encode2_spec`. -/
theorem encoder_2bit_quantize_pack (bm : FTBitmap)
    (hlen : bm.buffer.length = bm.width * bm.rows)
    (hval : ∀ v ∈ bm.buffer, v < 256) :
    render_glyph_2bit bm = encode2_spec bm ∧
    _render_downsampled bm
      (_build_4bit_grayscale bm.width bm.rows bm.buffer) true = encode2_spec bm := by
  obtain ⟨w, h, buf⟩ := bm
  exact ⟨render2_eq w h buf hlen hval, ctf_render2_eq w h buf hlen hval⟩

theorem encoder_2bit_quantize_pack_witness :
    ([(0 : Nat), 255, 128, 16, 32, 207] : List Nat).length = 3 * 2 ∧
    (∀ v ∈ [(0 : Nat), 255, 128, 16, 32, 207], v < 256) ∧
    render_glyph_2bit ⟨3, 2, [0, 255, 128, 16, 32, 207]⟩ =
      encode2_spec ⟨3, 2, [0, 255, 128, 16, 32, 207]⟩ :=
  ⟨by decide, by decide,
    (encoder_2bit_quantize_pack ⟨3, 2, [0, 255, 128, 16, 32, 207]⟩
      (by decide) (by decide)).1⟩

/-! ### Serialization lemmas -/

theorem intervalBytes_length :
    ∀ (ivs : List (Nat × Nat)) (off : Nat),
      (intervalBytes ivs off).length = 12 * ivs.length := by
  intro ivs
  induction ivs with
  | nil => intro off; rfl
  | cons p rest ih =>
    intro off
    obtain ⟨s, e⟩ := p
    simp only [intervalBytes, List.length_append, ih, List.length_cons]
    simp [le32]
    omega

theorem glyphBytes_length (g : GlyphRec) : (glyphBytes g).length = 14 := rfl

theorem glyphs_flat_length (gs : List (GlyphRec × List Nat)) :
    ((gs.map (fun g => glyphBytes g.1)).flatten).length = 14 * gs.length := by
  induction gs with
  | nil => rfl
  | cons g rest ih =>
    simp only [List.map_cons, List.flatten_cons, List.length_append, ih,
      glyphBytes_length, List.length_cons]
    omega

theorem blob_flat_length (gs : List (GlyphRec × List Nat)) :
    ((gs.map (fun g => g.2)).flatten).length =
      (gs.map (fun g => g.2.length)).sum := by
  rw [List.length_flatten, List.map_map]
  rfl

theorem headerBytes_length (is2bit : Bool) : (headerBytes is2bit).length = 16 := rfl

theorem metricsBytes_length (d : FontData) : (metricsBytes d).length = 18 := rfl

theorem write_epdfont_length (d : FontData) :
    (write_epdfont d).length =
      16 + 18 + 12 * d.intervals.length + 14 * d.glyphs.length +
        (d.glyphs.map (fun g => g.2.length)).sum := by
  unfold write_epdfont
  simp only [List.length_append, headerBytes_length, metricsBytes_length,
    intervalBytes_length, glyphs_flat_length, blob_flat_length]
  try omega

theorem drop_append_len {l₁ l₂ : List Nat} {n : Nat} (h : l₁.length = n) (m : Nat) :
    (l₁ ++ l₂).drop (n + m) = l₂.drop m := by
  subst h
  rw [← List.drop_drop, List.drop_left]

theorem intervalBytes_slice :
    ∀ (ivs : List (Nat × Nat)) (off k : Nat), k < ivs.length →
      ∀ (tail : List Nat),
        ((intervalBytes ivs off ++ tail).drop (12 * k)).take 12 =
          le32 (ivs.getD k (0, 0)).1 ++ le32 (ivs.getD k (0, 0)).2 ++
            le32 (off + ((ivs.take k).map (fun p => p.2 - p.1 + 1)).sum) := by
  intro ivs
  induction ivs with
  | nil => intro off k hk; simp at hk
  | cons p rest ih =>
    intro off k hk tail
    obtain ⟨s, e⟩ := p
    cases k with
    | zero =>
      simp only [Nat.mul_zero, List.drop_zero, List.getD_cons_zero,
        List.take_zero, List.map_nil, List.sum_nil, Nat.add_zero]
      rw [intervalBytes, List.append_assoc,
        List.take_left' (by rfl : (le32 s ++ le32 e ++ le32 off).length = 12)]
    | succ k =>
      have h12 : 12 * (k + 1) = 12 + 12 * k := by omega
      rw [intervalBytes, List.append_assoc, h12,
        drop_append_len (by rfl : (le32 s ++ le32 e ++ le32 off).length = 12),
        ih (off + (e - s + 1)) k (by simpa using hk) tail]
      simp only [List.getD_cons_succ, List.take_succ_cons, List.map_cons,
        List.sum_cons]
      have harg : off + (e - s + 1) + ((rest.take k).map (fun p => p.2 - p.1 + 1)).sum =
          off + (e - s + 1 + ((rest.take k).map (fun p => p.2 - p.1 + 1)).sum) := by
        omega
      rw [harg]

theorem writesToDisk_some (c : List Nat) (rest : List (Option (List Nat))) :
    writesToDisk (some c :: rest) =
      (c ++ (writesToDisk rest).1, (writesToDisk rest).2) := rfl

theorem ctf_intervals_eq :
    ∀ (ivs : List (Nat × Nat)) (off : Nat) (rest : List (Option (List Nat))),
      (∀ p ∈ ivs, p.1 < 4294967296 ∧ p.2 < 4294967296) →
      off + ((ivs.map (fun p => p.2 - p.1 + 1)).sum) < 4294967296 →
      writesToDisk (ctf_interval_chunks ivs off ++ rest) =
        (intervalBytes ivs off ++ (writesToDisk rest).1,
          (writesToDisk rest).2) := by
  intro ivs
  induction ivs with
  | nil => intro off rest _ _; simp [ctf_interval_chunks, intervalBytes]
  | cons p t ih =>
    intro off rest hiv hoff
    obtain ⟨s, e⟩ := p
    have hs := hiv (s, e) (List.mem_cons_self _ _)
    simp only [List.map_cons, List.sum_cons] at hoff
    have hchunk : catOpt [packI s, packI e, packI off] =
        some (le32 s ++ le32 e ++ le32 off) := by
      simp [catOpt, packI, hs.1, hs.2, show off < 4294967296 by omega]
    rw [ctf_interval_chunks, List.cons_append, hchunk, writesToDisk_some,
      ih (off + (e - s + 1)) rest
        (fun q hq => hiv q (List.mem_cons_of_mem _ hq)) (by omega),
      intervalBytes]
    simp [List.append_assoc]

theorem ctf_glyph_chunk_eq (g : GlyphRec) (h1 : g.width < 256)
    (h2 : g.height < 256) (h3 : i16ok g.left) (h4 : i16ok g.top)
    (h5 : g.data_length < 65536) (h6 : g.data_offset < 4294967296) :
    ctf_glyph_chunk g = some (glyphBytes g) := by
  obtain ⟨h3a, h3b⟩ := h3
  obtain ⟨h4a, h4b⟩ := h4
  have ha1 : (0 : Int) ≤ g.advance_x % 256 := Int.emod_nonneg _ (by norm_num)
  have ha2 : g.advance_x % 256 < 256 := Int.emod_lt_of_pos _ (by norm_num)
  simp [ctf_glyph_chunk, catOpt, packB, packBi, packh, packH, packI, glyphBytes,
    h1, h2, h5, h6, ha1, ha2, h3a, h3b, h4a, h4b,
    Nat.mod_eq_of_lt h1, Nat.mod_eq_of_lt h2]

theorem ctf_glyphs_eq :
    ∀ (gs : List (GlyphRec × List Nat)) (rest : List (Option (List Nat))),
      (∀ g ∈ gs, g.1.width < 256 ∧ g.1.height < 256 ∧ i16ok g.1.left ∧
        i16ok g.1.top ∧ g.1.data_length < 65536 ∧
        g.1.data_offset < 4294967296) →
      writesToDisk (gs.map (fun g => ctf_glyph_chunk g.1) ++ rest) =
        (((gs.map (fun g => glyphBytes g.1)).flatten) ++ (writesToDisk rest).1,
          (writesToDisk rest).2) := by
  intro gs
  induction gs with
  | nil => intro rest _; simp
  | cons g t ih =>
    intro rest hg
    have h := hg g (List.mem_cons_self _ _)
    rw [List.map_cons, List.cons_append,
      ctf_glyph_chunk_eq g.1 h.1 h.2.1 h.2.2.1 h.2.2.2.1 h.2.2.2.2.1 h.2.2.2.2.2,
      writesToDisk_some, ih rest (fun q hq => hg q (List.mem_cons_of_mem _ hq))]
    simp [List.append_assoc]

theorem ctf_blob_eq :
    ∀ (gs : List (GlyphRec × List Nat)),
      writesToDisk (gs.map (fun g => some g.2)) =
        ((gs.map (fun g => g.2)).flatten, true) := by
  intro gs
  induction gs with
  | nil => rfl
  | cons g t ih =>
    rw [List.map_cons, writesToDisk_some, ih]
    simp

theorem ctf_header_eq (is2bit : Bool) :
    ctf_header is2bit = some (headerBytes is2bit) := by
  cases is2bit <;> rfl

theorem ctf_metrics_eq (d : FontData) (ha : i16ok d.ascender)
    (hd : i16ok d.descender) (hI : d.intervals.length < 4294967296)
    (hG : d.glyphs.length < 4294967296)
    (hB : (d.glyphs.map (fun g => g.2.length)).sum < 4294967296) :
    ctf_metrics d = some (metricsBytes d) := by
  obtain ⟨ha1, ha2⟩ := ha
  obtain ⟨hd1, hd2⟩ := hd
  have h1 : (0 : Int) ≤ d.advance_y % 256 := Int.emod_nonneg _ (by norm_num)
  have h2 : d.advance_y % 256 < 256 := Int.emod_lt_of_pos _ (by norm_num)
  simp [ctf_metrics, catOpt, packBi, packh, packI, metricsBytes,
    h1, h2, ha1, ha2, hd1, hd2, hI, hG, hB]

/-- Under the field-range hypotheses every write succeeds, and the ctf
binary writer produces exactly the fontconvert buffer. -/
theorem ctf_writes_complete (d : FontData) (hok : rangesOk d) :
    writesToDisk (ctf_chunks d) = (write_epdfont d, true) := by
  obtain ⟨hiv, hsum, hg, ha, hd, hI, hG, hB⟩ := hok
  unfold ctf_chunks
  rw [show ([ctf_header d.is2bit, ctf_metrics d] : List (Option (List Nat))) ++
      ctf_interval_chunks d.intervals 0 ++
      d.glyphs.map (fun g => ctf_glyph_chunk g.1) ++
      d.glyphs.map (fun g => some g.2) =
      ctf_header d.is2bit :: ctf_metrics d ::
        (ctf_interval_chunks d.intervals 0 ++
          (d.glyphs.map (fun g => ctf_glyph_chunk g.1) ++
            d.glyphs.map (fun g => some g.2))) from by simp]
  rw [ctf_header_eq, writesToDisk_some, ctf_metrics_eq d ha hd hI hG hB,
    writesToDisk_some,
    ctf_intervals_eq d.intervals 0 _ hiv (by omega),
    ctf_glyphs_eq d.glyphs _ hg, ctf_blob_eq d.glyphs]
  unfold write_epdfont
  simp [List.append_assoc]

theorem take_append_len (l₁ l₂ : List Nat) (n : Nat) :
    (l₁ ++ l₂).take (l₁.length + n) = l₁ ++ l₂.take n := by
  induction l₁ with
  | nil => simp
  | cons a t ih =>
    have hlen : (a :: t).length + n = (t.length + n) + 1 := by
      simp only [List.length_cons]; omega
    rw [hlen, List.cons_append, List.take_succ_cons, ih, List.cons_append]

/-- Claim C4: the binary container written by `write_epdfont` has the
fixed little-endian layout: total size
`16 + 18 + 12·intervalCount + 14·glyphCount + bitmapByteSize`; a
16-byte header of magic "EPDF" (LE 0x46445045), version 1, flags with
bit 0 iff 2-bit mode, and 8 zero reserved bytes; the k-th 12-byte
interval record carries first, last, and the cumulative code-point
count of all preceding intervals; and the binary-writing section of
convert_theme_fonts.py `convert_font` emits the identical bytes when
every field packs (all fields in range). -/
theorem epdfont_binary_layout (d : FontData) :
    (write_epdfont d).length =
      16 + 18 + 12 * d.intervals.length + 14 * d.glyphs.length +
        (d.glyphs.map (fun g => g.2.length)).sum ∧
    (write_epdfont d).take 16 =
      [0x45, 0x50, 0x44, 0x46, 1, 0, if d.is2bit then 1 else 0, 0,
        0, 0, 0, 0, 0, 0, 0, 0] ∧
    (∀ k, k < d.intervals.length →
      ((write_epdfont d).drop (34 + 12 * k)).take 12 =
        le32 (d.intervals.getD k (0, 0)).1 ++
          le32 (d.intervals.getD k (0, 0)).2 ++
          le32 (((d.intervals.take k).map (fun p => p.2 - p.1 + 1)).sum)) ∧
    (rangesOk d → writesToDisk (ctf_chunks d) = (write_epdfont d, true)) := by
  refine ⟨write_epdfont_length d, ?_, ?_, ctf_writes_complete d⟩
  · unfold write_epdfont
    rw [List.append_assoc, List.append_assoc, List.append_assoc,
      List.take_left' (headerBytes_length d.is2bit)]
    cases d.is2bit <;> rfl
  · intro k hk
    unfold write_epdfont
    have h34 : 34 + 12 * k = 16 + (18 + 12 * k) := by omega
    rw [List.append_assoc, List.append_assoc, List.append_assoc, h34,
      drop_append_len (headerBytes_length d.is2bit),
      drop_append_len (metricsBytes_length d)]
    have hslice := intervalBytes_slice d.intervals 0 k hk
      (((d.glyphs.map (fun g => glyphBytes g.1)).flatten) ++
        ((d.glyphs.map (fun g => g.2)).flatten))
    simp only [Nat.zero_add] at hslice
    exact hslice

theorem epdfont_binary_layout_witness :
    rangesOk (⟨[(⟨4, 5, 7, 1, 5, 4, 0, 65⟩, [1, 2, 3, 4])],
        [(65, 65)], 19, 15, -4, false⟩ : FontData) ∧
    writesToDisk (ctf_chunks (⟨[(⟨4, 5, 7, 1, 5, 4, 0, 65⟩, [1, 2, 3, 4])],
        [(65, 65)], 19, 15, -4, false⟩ : FontData)) =
      (write_epdfont (⟨[(⟨4, 5, 7, 1, 5, 4, 0, 65⟩, [1, 2, 3, 4])],
        [(65, 65)], 19, 15, -4, false⟩ : FontData), true) :=
  ⟨by decide,
    (epdfont_binary_layout (⟨[(⟨4, 5, 7, 1, 5, 4, 0, 65⟩, [1, 2, 3, 4])],
      [(65, 65)], 19, 15, -4, false⟩ : FontData)).2.2.2 (by decide)⟩

/-- Disk content after a chunked write run is always an initial segment
of the full serialization. -/
theorem writesToDisk_front :
    ∀ (chunks : List (Option (List Nat))), ∃ n,
      (writesToDisk chunks).1 =
        ((chunks.map (fun c => c.getD [])).flatten).take n := by
  intro chunks
  induction chunks with
  | nil => exact ⟨0, rfl⟩
  | cons o rest ih =>
    rcases o with _ | c
    · exact ⟨0, rfl⟩
    · obtain ⟨n, hn⟩ := ih
      refine ⟨c.length + n, ?_⟩
      simp only [writesToDisk_some, List.map_cons, Option.getD_some,
        List.flatten_cons]
      rw [hn, take_append_len]

/-- Claim C7 (counterexample): a conversion of convert_theme_fonts.py
that fails during record packing leaves a partial file.  With one
glyph of rendered width 300, the header, metrics and interval record
(46 bytes) are already written when `struct.pack('<4B', 300, ...)`
raises; the except handler reports failure without removing them. -/
theorem ctf_partial_file_on_failure :
    (writesToDisk (ctf_chunks (⟨[(⟨300, 5, 7, 1, 5, 4, 0, 65⟩, [1, 2, 3, 4])],
        [(65, 65)], 19, 15, -4, false⟩ : FontData))).2 = false ∧
    (writesToDisk (ctf_chunks (⟨[(⟨300, 5, 7, 1, 5, 4, 0, 65⟩, [1, 2, 3, 4])],
        [(65, 65)], 19, 15, -4, false⟩ : FontData))).1 ≠ [] ∧
    (writesToDisk (ctf_chunks (⟨[(⟨300, 5, 7, 1, 5, 4, 0, 65⟩, [1, 2, 3, 4])],
        [(65, 65)], 19, 15, -4, false⟩ : FontData))).1.length = 46 := by
  refine ⟨by decide, by decide, by decide⟩

/-- Claim C7 (amended): no output file is created before the full
in-memory asset is constructed.  In fontconvert.py the whole buffer is
assembled and written at once, so a failed conversion writes nothing
and a written file is the complete serialization.  In
convert_theme_fonts.py the file is created only after construction and
a fully successful write sequence holds exactly the complete
serialization, but the file is written in chunks: what a failed run
leaves on disk is the initial segment written before the failing
record pack (so a mid-write packing error leaves a partial file). -/
theorem output_file_integrity (conv : Option FontData) :
    (conv = none → fc_output conv = none) ∧
    (∀ d, conv = some d → fc_output conv = some (write_epdfont d) ∧
      (write_epdfont d).length =
        16 + 18 + 12 * d.intervals.length + 14 * d.glyphs.length +
          (d.glyphs.map (fun g => g.2.length)).sum) ∧
    (∀ d, rangesOk d → writesToDisk (ctf_chunks d) = (write_epdfont d, true)) ∧
    (∀ chunks : List (Option (List Nat)), ∃ n,
      (writesToDisk chunks).1 =
        ((chunks.map (fun c => c.getD [])).flatten).take n) := by
  refine ⟨fun h => by rw [h]; rfl,
    fun d hd => ⟨by rw [hd]; rfl, write_epdfont_length d⟩,
    fun d hok => ctf_writes_complete d hok,
    writesToDisk_front⟩

theorem output_file_integrity_witness :
    fc_output (some (⟨[], [(65, 65)], 19, 15, -4, true⟩ : FontData)) =
      some (write_epdfont (⟨[], [(65, 65)], 19, 15, -4, true⟩ : FontData)) ∧
    (write_epdfont (⟨[], [(65, 65)], 19, 15, -4, true⟩ : FontData)).length =
      16 + 18 + 12 * 1 + 14 * 0 + 0 :=
  ⟨((output_file_integrity
      (some (⟨[], [(65, 65)], 19, 15, -4, true⟩ : FontData))).2.1
      (⟨[], [(65, 65)], 19, 15, -4, true⟩ : FontData) rfl).1, by decide⟩

/-- Claim C8 (counterexample): convert_theme_fonts.py does not reduce
width to a byte: at rendered width 300 the in-memory record stores
300, which is not in 0..255, and serializing the record is an error
(`struct.pack('<4B', 300, ...)` raises), not a silent truncation. -/
theorem ctf_width_not_truncated :
    (ctf_make_glyph 300 5 448 1 5 4 0 65).width = 300 ∧
    ¬ (ctf_make_glyph 300 5 448 1 5 4 0 65).width ≤ 255 ∧
    ctf_glyph_chunk (ctf_make_glyph 300 5 448 1 5 4 0 65) = none := by
  refine ⟨rfl, by decide, by decide⟩

/-- Claim C8 (amended): in fontconvert.py's convert_font the stored
width, height and advanceX are the rendered values clamped with
`min(.., 255)`, and the serialized byte equals the stored value (for
nonnegative advance).  In convert_theme_fonts.py's convert_font the
record stores width and height unclamped; serialization masks only
advanceX (& 0xFF) and errors out when width or height exceeds 255. -/
theorem glyph_byte_reduction (bmW bmR : Nat) (adv left top : Int)
    (dl doff cp : Nat) :
    (fc_make_glyph bmW bmR adv left top dl doff cp).width = min bmW 255 ∧
    (fc_make_glyph bmW bmR adv left top dl doff cp).width ≤ 255 ∧
    (glyphBytes (fc_make_glyph bmW bmR adv left top dl doff cp)).getD 0 0 =
      min bmW 255 ∧
    (fc_make_glyph bmW bmR adv left top dl doff cp).height = min bmR 255 ∧
    (fc_make_glyph bmW bmR adv left top dl doff cp).height ≤ 255 ∧
    (glyphBytes (fc_make_glyph bmW bmR adv left top dl doff cp)).getD 1 0 =
      min bmR 255 ∧
    (0 ≤ norm_floor adv →
      (fc_make_glyph bmW bmR adv left top dl doff cp).advance_x =
        min (norm_floor adv) 255 ∧
      (glyphBytes (fc_make_glyph bmW bmR adv left top dl doff cp)).getD 2 0 =
        (min (norm_floor adv) 255).toNat) ∧
    (ctf_make_glyph bmW bmR adv left top dl doff cp).width = bmW ∧
    (ctf_make_glyph bmW bmR adv left top dl doff cp).height = bmR ∧
    (bmW ≤ 255 → bmR ≤ 255 → i16ok left → i16ok top → dl < 65536 →
      doff < 4294967296 →
      ctf_glyph_chunk (ctf_make_glyph bmW bmR adv left top dl doff cp) =
        some (glyphBytes (ctf_make_glyph bmW bmR adv left top dl doff cp))) ∧
    (255 < bmW →
      ctf_glyph_chunk (ctf_make_glyph bmW bmR adv left top dl doff cp) = none) := by
  refine ⟨rfl, by simp [fc_make_glyph], ?_, rfl, by simp [fc_make_glyph], ?_,
    fun hadv => ⟨rfl, ?_⟩, rfl, rfl, ?_, ?_⟩
  · simp [glyphBytes, fc_make_glyph, Nat.mod_eq_of_lt
      (show min bmW 255 < 256 by omega)]
  · simp [glyphBytes, fc_make_glyph, Nat.mod_eq_of_lt
      (show min bmR 255 < 256 by omega)]
  · have hle : min (norm_floor adv) 255 ≤ 255 := min_le_right _ _
    have hge : (0 : Int) ≤ min (norm_floor adv) 255 := le_min hadv (by norm_num)
    simp only [glyphBytes, fc_make_glyph]
    rw [Int.emod_eq_of_lt hge (by omega)]
    rfl
  · intro h1 h2 h3 h4 h5 h6
    exact ctf_glyph_chunk_eq _ (by simp [ctf_make_glyph]; omega)
      (by simp [ctf_make_glyph]; omega) h3 h4 h5 h6
  · intro hw
    simp [ctf_glyph_chunk, catOpt, packB, ctf_make_glyph,
      show ¬ bmW < 256 by omega]

theorem glyph_byte_reduction_witness :
    ((0 : Int) ≤ norm_floor 448 ∧
      (fc_make_glyph 300 5 448 1 5 4 0 65).advance_x = min (norm_floor 448) 255 ∧
      (glyphBytes (fc_make_glyph 300 5 448 1 5 4 0 65)).getD 2 0 =
        (min (norm_floor 448) 255).toNat) ∧
    (255 < 300 ∧
      ctf_glyph_chunk (ctf_make_glyph 300 5 448 1 5 4 0 65) = none) :=
  ⟨⟨by decide, (glyph_byte_reduction 300 5 448 1 5 4 0 65).2.2.2.2.2.2.1
      (by decide)⟩,
    ⟨by decide, (glyph_byte_reduction 300 5 448 1 5 4 0 65).2.2.2.2.2.2.2.2.2.2
      (by decide)⟩⟩

/-- Claim C5 (counterexample): the code assigns `weight * 65536` (a
16.16 design coordinate), not `weight * 64`: at weight 1 a "Weight"
axis receives 65536, not 64. -/
theorem weight_axis_scale_counterexample :
    set_variable_font_weight (some [⟨"Weight".toList, 0⟩]) 1 = some [65536] ∧
    (65536 : Int) ≠ 1 * 64 := by
  refine ⟨by decide, by decide⟩

/-- Claim C5 (amended): setting the variable-font weight assigns the
design coordinate `weight * 65536` to every axis whose name
case-insensitively contains "weight" or "wght", leaves every other
axis at its default coordinate, and is a no-op (the early return on an
`FT_Get_MM_Var` error) for fonts without variation axes. -/
theorem variable_font_weight_axes (axes : List FTVarAxis) (weight : Int) :
    set_variable_font_weight none weight = none ∧
    ∃ coords, set_variable_font_weight (some axes) weight = some coords ∧
      coords.length = axes.length ∧
      ∀ i, i < axes.length →
        coords.getD i 0 =
          if "weight".toList <:+: (axes.getD i ⟨[], 0⟩).name.map Char.toLower ∨
              "wght".toList <:+: (axes.getD i ⟨[], 0⟩).name.map Char.toLower
          then weight * 65536 else (axes.getD i ⟨[], 0⟩).default := by
  refine ⟨rfl, ?_⟩
  have hres : set_variable_font_weight (some axes) weight =
      some (axes.map (fun a =>
        if isWeightAxis a.name then weight * 65536 else a.default)) := rfl
  refine ⟨_, hres, by simp, fun i hi => ?_⟩
  rw [List.getD_eq_getElem _ _ (by simpa using hi), List.getElem_map,
    List.getD_eq_getElem _ _ hi]
  apply if_congr _ rfl rfl
  simp [isWeightAxis]

theorem variable_font_weight_axes_witness :
    (0 : Nat) < ([⟨"Weight".toList, (9 : Int)⟩, ⟨"Slant".toList, 3⟩] :
      List FTVarAxis).length ∧
    set_variable_font_weight none 400 = none :=
  ⟨by decide, (variable_font_weight_axes
    [⟨"Weight".toList, (9 : Int)⟩, ⟨"Slant".toList, 3⟩] 400).1⟩

/-- Claim C6 (counterexample): in fontconvert.py's binary `-r` mode a
failed conversion does not make the exit status nonzero: the loop
prints and continues, main returns None, and the process exits 0 even
when every requested conversion failed. -/
theorem binary_mode_exit_ignores_failures :
    fontconvert_binary_exit [false] = 0 ∧ ctf_main_exit [false] = 1 := by
  refine ⟨rfl, by decide⟩

/-- Claim C6 (amended): convert_theme_fonts.py `main` returns 0 iff
every requested (size, style) item produced its asset, and
fontconvert.py's header mode exits nonzero when a font file is missing
or the conversion produced no data; but fontconvert.py's binary `-r`
mode always exits 0, regardless of per-item failures. -/
theorem batch_exit_status (outcomes : List Bool) (fontsFound dataOk : Bool) :
    (ctf_main_exit outcomes = 0 ↔ ∀ b ∈ outcomes, b = true) ∧
    (fontconvert_header_exit fontsFound dataOk = 0 ↔
      fontsFound = true ∧ dataOk = true) ∧
    fontconvert_binary_exit outcomes = 0 := by
  refine ⟨?_, ?_, rfl⟩
  · unfold ctf_main_exit
    by_cases hc : outcomes.count true = outcomes.length
    · simp only [hc, if_pos rfl]
      rw [List.count_eq_length] at hc
      exact ⟨fun _ b hb => (hc b hb).symm, fun _ => rfl⟩
    · rw [if_neg hc]
      constructor
      · intro h; omega
      · intro hall
        exact absurd (List.count_eq_length.2 (fun b hb => (hall b hb).symm)) hc
  · cases fontsFound <;> cases dataOk <;> simp [fontconvert_header_exit]

theorem batch_exit_status_witness :
    ctf_main_exit [true, true] = 0 ∧ fontconvert_binary_exit [true, false] = 0 :=
  ⟨(batch_exit_status [true, true] true true).1.2 (by decide),
    (batch_exit_status [true, false] true true).2.2⟩

end Papy
